import Mathlib

/-!
Shallow embedding of the tree/path/query core of `CGNS/PAT/cgnsutils.py`
(pyCGNS).  A CGNS/Python node is the 4-item list
`[name, value, children, sids-type]`; values are numpy arrays or `None`.
All definitions below are transcribed from the Python source; Python
functions that may receive `None` instead of a string take an
`Option String`, functions that may raise return `Except`.
-/

/-- The value slot of a node.  In Python this is `None`, a `numpy.ndarray`,
or an arbitrary other object (the code checks `type(v)==numpy.ndarray` at
run time).  A numpy array is modelled by its dtype kind character, dtype
char, Fortran-order flag, shape and flat element data; `other` keeps an id
so that distinct non-array Python objects stay distinguishable. -/
inductive PyVal where
  | vnone : PyVal
  | arr (kind : Char) (dchar : Char) (fortran : Bool) (shape : List Nat) (data : List Int) : PyVal
  | other (id : Nat) : PyVal
deriving DecidableEq, Repr

/-- A CGNS/Python node `[name, value, children, sidstype]`. -/
inductive Node where
  | mk (name : String) (value : PyVal) (children : List Node) (tag : String) : Node
deriving Repr

mutual

def nodeBEq : Node → Node → Bool
  | .mk n1 v1 cs1 t1, .mk n2 v2 cs2 t2 =>
    n1 == n2 && v1 == v2 && nodeListBEq cs1 cs2 && t1 == t2

def nodeListBEq : List Node → List Node → Bool
  | [], [] => true
  | c :: cs, d :: ds => nodeBEq c d && nodeListBEq cs ds
  | _, _ => false

end

mutual

theorem nodeBEq_iff : ∀ a b : Node, nodeBEq a b = true ↔ a = b
  | .mk n1 v1 cs1 t1, .mk n2 v2 cs2 t2 => by
    simp only [nodeBEq, Bool.and_eq_true, beq_iff_eq, Node.mk.injEq]
    rw [nodeListBEq_iff cs1 cs2]
    tauto

theorem nodeListBEq_iff : ∀ as bs : List Node, nodeListBEq as bs = true ↔ as = bs
  | [], [] => by simp [nodeListBEq]
  | [], _ :: _ => by simp [nodeListBEq]
  | _ :: _, [] => by simp [nodeListBEq]
  | c :: cs, d :: ds => by
    simp only [nodeListBEq, Bool.and_eq_true, List.cons.injEq]
    rw [nodeBEq_iff c d, nodeListBEq_iff cs ds]

end

instance : DecidableEq Node := fun a b => decidable_of_iff _ (nodeBEq_iff a b)

def Node.name : Node → String
  | .mk n _ _ _ => n

def Node.value : Node → PyVal
  | .mk _ v _ _ => v

def Node.children : Node → List Node
  | .mk _ _ c _ => c

def Node.tag : Node → String
  | .mk _ _ _ t => t

/-- `CGNS.PAT.cgnskeywords` constants used by the source module (the keyword
module is an external collaborator of this core; these are its published
string values). -/
def CGNSTree_s : String := "CGNSTree"

def CGNSTree_ts : String := "CGNSTree_t"

def CGNSLibraryVersion_s : String := "CGNSLibraryVersion"

def CGNSLibraryVersion_ts : String := "CGNSLibraryVersion_t"

def CGNSBase_ts : String := "CGNSBase_t"

def CGNSHDF5ROOT_s : String := "HDF5 MotherNode"

/-! ### `/`-separated string splitting and joining

Python `str.split('/')` and `'/'.join`, modelled on character lists.
`String` in this Lean version is a structure around `List Char`, so the
string-level wrappers below are thin. -/

/-- `cs.split('/')`: Python `str.split` with an explicit one-character
separator keeps empty segments; the split of the empty string is `[[]]`. -/
def splitSlashL : List Char → List (List Char)
  | [] => [[]]
  | c :: cs =>
    if c = '/' then [] :: splitSlashL cs
    else
      match splitSlashL cs with
      | [] => [[c]]
      | h :: t => (c :: h) :: t

/-- `'/'.join` on character-list segments. -/
def joinSlashL : List (List Char) → List Char
  | [] => []
  | [s] => s
  | s :: t :: rest => s ++ '/' :: joinSlashL (t :: rest)

theorem splitSlashL_ne_nil (cs : List Char) : splitSlashL cs ≠ [] := by
  cases cs with
  | nil => simp [splitSlashL]
  | cons c cs =>
    simp only [splitSlashL]
    split
    · simp
    · split <;> simp

theorem joinSlashL_cons (s : List Char) (t : List (List Char)) (ht : t ≠ []) :
    joinSlashL (s :: t) = s ++ '/' :: joinSlashL t := by
  cases t with
  | nil => exact absurd rfl ht
  | cons a r => rfl

theorem splitSlashL_slash (cs : List Char) :
    splitSlashL ('/' :: cs) = [] :: splitSlashL cs := by
  simp [splitSlashL]

theorem join_splitSlashL (cs : List Char) : joinSlashL (splitSlashL cs) = cs := by
  induction cs with
  | nil => rfl
  | cons c cs ih =>
    by_cases hc : c = '/'
    · subst hc
      rw [splitSlashL_slash, joinSlashL_cons _ _ (splitSlashL_ne_nil cs), ih]
      simp
    · simp only [splitSlashL, if_neg hc]
      rcases hsp : splitSlashL cs with _ | ⟨h, t⟩
      · exact absurd hsp (splitSlashL_ne_nil cs)
      · rw [hsp] at ih
        cases t with
        | nil =>
          simp only [joinSlashL] at ih ⊢
          rw [ih]
        | cons a r =>
          rw [joinSlashL_cons _ _ (by simp)] at ih
          rw [joinSlashL_cons _ _ (by simp), List.cons_append]
          exact congrArg (c :: ·) ih

theorem splitSlashL_append_slash (a b : List Char) (ha : '/' ∉ a) :
    splitSlashL (a ++ '/' :: b) = a :: splitSlashL b := by
  induction a with
  | nil => simp [splitSlashL]
  | cons c a ih =>
    have hc : ¬ c = '/' := by
      intro h
      exact ha (by simp [h])
    have ha2 : '/' ∉ a := fun h => ha (by simp [h])
    rw [List.cons_append]
    simp only [splitSlashL, if_neg hc]
    rw [ih ha2]

theorem splitSlashL_no_slash (cs : List Char) (h : '/' ∉ cs) :
    splitSlashL cs = [cs] := by
  induction cs with
  | nil => rfl
  | cons c cs ih =>
    have hc : ¬ c = '/' := by
      intro hcc
      exact h (by simp [hcc])
    have h2 : '/' ∉ cs := fun hm => h (by simp [hm])
    simp only [splitSlashL, if_neg hc, ih h2]

theorem split_joinSlashL (ls : List (List Char)) (hne : ls ≠ [])
    (h : ∀ s ∈ ls, '/' ∉ s) : splitSlashL (joinSlashL ls) = ls := by
  induction ls with
  | nil => exact absurd rfl hne
  | cons s t ih =>
    cases t with
    | nil =>
      simp only [joinSlashL]
      exact splitSlashL_no_slash s (h s (by simp))
    | cons a r =>
      rw [joinSlashL_cons _ _ (by simp),
        splitSlashL_append_slash _ _ (h s (by simp))]
      rw [ih (by simp) (fun x hx => h x (by simp [hx]))]

theorem mem_of_mem_splitSlashL {c : Char} :
    ∀ {cs s : List Char}, s ∈ splitSlashL cs → c ∈ s → c ∈ cs := by
  intro cs
  induction cs with
  | nil =>
    intro s hs hc
    simp [splitSlashL] at hs
    subst hs
    simp at hc
  | cons x xs ih =>
    intro s hs hc
    by_cases hx : x = '/'
    · rw [splitSlashL, if_pos hx] at hs
      rcases List.mem_cons.mp hs with hs | hs
      · subst hs; simp at hc
      · exact List.mem_cons_of_mem _ (ih hs hc)
    · rw [splitSlashL, if_neg hx] at hs
      rcases hxs : splitSlashL xs with _ | ⟨h1, t1⟩
      · exact absurd hxs (splitSlashL_ne_nil xs)
      · rw [hxs] at hs
        rcases List.mem_cons.mp hs with hs | hs
        · subst hs
          rcases List.mem_cons.mp hc with hcx | hch
          · simp [hcx]
          · exact List.mem_cons_of_mem _ (ih (by rw [hxs]; exact List.mem_cons_self _ _) hch)
        · exact List.mem_cons_of_mem _ (ih (by rw [hxs]; exact List.mem_cons_of_mem _ hs) hc)

theorem slash_not_mem_of_mem_splitSlashL :
    ∀ {cs s : List Char}, s ∈ splitSlashL cs → '/' ∉ s := by
  intro cs
  induction cs with
  | nil =>
    intro s hs
    simp [splitSlashL] at hs
    subst hs
    simp
  | cons x xs ih =>
    intro s hs
    by_cases hx : x = '/'
    · rw [splitSlashL, if_pos hx] at hs
      rcases List.mem_cons.mp hs with hs | hs
      · subst hs; simp
      · exact ih hs
    · rw [splitSlashL, if_neg hx] at hs
      rcases hxs : splitSlashL xs with _ | ⟨h1, t1⟩
      · exact absurd hxs (splitSlashL_ne_nil xs)
      · rw [hxs] at hs
        rcases List.mem_cons.mp hs with hs | hs
        · subst hs
          intro hmem
          rcases List.mem_cons.mp hmem with hc1 | hc2
          · exact hx hc1.symm
          · exact ih (by rw [hxs]; exact List.mem_cons_self _ _) hc2
        · exact ih (by rw [hxs]; exact List.mem_cons_of_mem _ hs)

/-- Python `path.split('/')` as a list of strings. -/
def pathSplit (s : String) : List String :=
  (splitSlashL s.data).map String.mk

/-- Python `'/'.join(ls)`. -/
def joinPath (ls : List String) : String :=
  ⟨joinSlashL (ls.map String.data)⟩

/-! ### Path normalization

`getPathNormalize` delegates to `os.path.normpath`; the module runs on a
POSIX system, so this is `posixpath.normpath` (Python 2.7), transcribed
below, followed by `.replace('\\','/')`. -/

/-- One step of the component loop of `posixpath.normpath`: `''` and `'.'`
components are dropped; `'..'` pops the last accumulated component, except
at the head of a relative path or after an unresolved `'..'`, where it is
kept.  `isl` is `initial_slashes`. -/
def normStep (isl : Nat) (acc : List (List Char)) (comp : List Char) : List (List Char) :=
  if comp = [] ∨ comp = ['.'] then acc
  else if comp ≠ ['.', '.'] ∨ (isl = 0 ∧ acc = []) ∨ acc.getLast? = some ['.', '.'] then
    acc ++ [comp]
  else if acc ≠ [] then acc.dropLast
  else acc

/-- `initial_slashes` of `posixpath.normpath`: one or two leading slashes
are preserved, three or more collapse to one. -/
def normIsl (p : List Char) : Nat :=
  if p.take 1 = ['/'] then
    if p.take 2 = ['/', '/'] ∧ p.take 3 ≠ ['/', '/', '/'] then 2 else 1
  else 0

/-- `posixpath.normpath` (Python 2.7) on a character list; the empty
result becomes `'.'`. -/
def normpathL (p : List Char) : List Char :=
  if p = [] then ['.']
  else
    let nc := (splitSlashL p).foldl (normStep (normIsl p)) []
    let res := List.replicate (normIsl p) '/' ++ joinSlashL nc
    if res = [] then ['.'] else res

/-- `getPathNormalize(path)` on a character list: prepend `'///'` when the
path starts with a slash or a backslash, apply `os.path.normpath`, then
`.replace('\\','/')` (replacement of a single character is a character
map). -/
def getPathNormalizeL (p : List Char) : List Char :=
  let q := if p.take 1 = ['/'] ∨ p.take 1 = ['\\'] then '/' :: '/' :: '/' :: p else p
  (normpathL q).map (fun c => if c = '\\' then '/' else c)

/-- `getPathNormalize(path)`. -/
def getPathNormalize (path : String) : String :=
  ⟨getPathNormalizeL path.data⟩

/-! ### Name and path syntax checks -/

/-- The allowed name alphabet
`string.digits+string.letters+string.punctuation+' '` with `'/'` removed
(under the default C locale these are exactly the printable ASCII
characters 32..126, minus the separator). -/
def nameChar (c : Char) : Bool :=
  32 ≤ c.toNat && c.toNat ≤ 126 && c != '/'

/-- The characters additionally removed from the allowed set in strict
mode: double quote, backslash, single quote, backtick. -/
def strictRemoved (c : Char) : Bool :=
  c.toNat = 34 || c.toNat = 92 || c.toNat = 39 || c.toNat = 96

/-- `'  ' in name`: some two consecutive characters are both spaces. -/
def hasDoubleSpace : List Char → Bool
  | a :: b :: r => (a == ' ' && b == ' ') || hasDoubleSpace (b :: r)
  | _ => false

/-- `checkName(name, dienow=False, strict)`: the boolean result; each
`false` branch matches one raised error code of the `dienow` mode (22..34),
in source order.  The not-a-string case (error 22) cannot arise in the
typed embedding. -/
def checkName (name : String) (strict : Bool) : Bool :=
  if name.length = 0 then false                                    -- error 23
  else if ¬ name.data.all nameChar then false                      -- error 24
  else if 32 < name.length then false                              -- error 25
  else if name = "." ∨ name = ".." then false                      -- error 29
  else if name.data.all (fun c => c == ' ') then false             -- error 31
  else if strict then
    -- no leading/trailing whitespace (only ' ' can remain at this point)
    if name.data.head? = some ' ' ∨ name.data.getLast? = some ' ' then false  -- error 32
    else if ¬ name.data.all (fun c => !strictRemoved c) then false            -- error 33
    else if hasDoubleSpace name.data then false                               -- error 34
    else true
  else true

/-- `checkPath(path, dienow=False)`: non-empty, and every `/`-separated
segment (after stripping one leading slash) passes `checkName`. -/
def checkPath (path : String) : Bool :=
  if path = "" then false
  else
    let p := if path.data.take 1 = ['/'] then path.data.drop 1 else path.data
    (splitSlashL p).all (fun seg => checkName (String.mk seg) false)

/-! ### Path list, ancestor, leaf -/

/-- `getPathNoRoot(path)`: strip a leading `CGNSTree`/HDF5-root segment
after normalization.  Python accesses `lp[0]` after the first strip, which
raises `IndexError` when the stripped list is empty (a bare relative root
segment); that corner, unreachable from the claims below, is modelled as
joining the stripped list directly. -/
def getPathNoRoot (path : Option String) : String :=
  match path with
  | none => "/"
  | some path =>
    if path = "" then "/"
    else
      let path := getPathNormalize path
      if path = "/" then path
      else
        let lp := pathSplit path
        let lp := if lp.head? = some CGNSHDF5ROOT_s ∨ lp.head? = some CGNSTree_s then
                    lp.tail
                  else lp
        let lp := match lp with
                  | first :: second :: rest =>
                    if first = "" ∧ (second = CGNSHDF5ROOT_s ∨ second = CGNSTree_s) then
                      first :: rest
                    else first :: second :: rest
                  | l => l
        joinPath lp

/-- `getPathToList(path, nofirst=False, noroot=True)`.  Python indexes
`path[0]` for the `nofirst` strip; when the path normalized to `''` that
raises `IndexError`, modelled here as the fall-through (the claims below
never reach that corner). -/
def getPathToList (path : Option String) (nofirst noroot : Bool) : List String :=
  match path with
  | none => []
  | some path =>
    if 0 < path.length then
      let path := getPathNormalize path
      let path := if noroot then getPathNoRoot (some path) else path
      let path := if nofirst ∧ path.data.head? = some '/' then String.mk path.data.tail
                  else path
      if path ≠ "/" ∧ path ≠ "" then pathSplit path else []
    else []

/-- `getPathAncestor(path, level=1, noroot=True)`.  The recursive call for
`level>1` uses the default `noroot=True`, exactly as in the source
(`level > 1` is matched structurally as `l + 2`). -/
def getPathAncestor : Option String → Nat → Bool → Option String
  | path, level, noroot =>
    let lp := getPathToList path false noroot
    let ancestor : Option String :=
      if lp.length = 2 ∧ lp.head? = some "" then some "/"
      else if 1 < lp.length then some (joinPath lp.dropLast)
      else if lp.length = 1 then some "/"
      else none
    let ancestor := if level = 0 then path else ancestor
    match level with
    | l + 2 => getPathAncestor ancestor (l + 1) true
    | _ => ancestor

/-- `getPathLeaf(path)`: last element of `getPathToList(path)`, `''` when
the list is empty. -/
def getPathLeaf (path : Option String) : String :=
  match (getPathToList path false true).getLast? with
  | some s => s
  | none => ""

/-! ### Node well-formedness and shallow node comparison -/

/-- `checkNode(node, dienow=False)`: in the typed embedding the only
representable failure is a value slot holding a non-array, non-None
object (error code 5); the list-shape failures (codes 1..4) cannot be
represented. -/
def checkNode (node : Node) : Bool :=
  match node.value with
  | .other _ => false
  | _ => true

/-- `checkNode` in raising (`dienow`) mode, used inside `isRootNode`. -/
def checkNodeE (node : Node) (dienow : Bool) : Except Nat Bool :=
  match node.value with
  | .other _ => if dienow then .error 5 else .ok false
  | _ => .ok true

/-- Python `type(a) == type(b)` on value slots: both `None`, both
`numpy.ndarray`, or both some other object — the latter approximated by
object identity, reachable only when `checkNode` already failed, where the
result of `sameNode` is already forced to `false`. -/
def sameValueType : PyVal → PyVal → Bool
  | .vnone, .vnone => true
  | .arr _ _ _ _ _, .arr _ _ _ _ _ => true
  | .other i, .other j => i = j
  | _, _ => false

/-- `checkSameValue(nodeA, nodeB)`: `None` equals `None`, a present/absent
mismatch is unequal, two arrays compare by dtype, shape, then element-wise
equality (`NPY.all(NPY.equal(vA,vB))` under equal dtype and shape); the
final Python `vA == vB` between two non-array non-None objects is
modelled as object identity. -/
def checkSameValue (a b : Node) : Bool :=
  match a.value, b.value with
  | .vnone, .vnone => true
  | .vnone, _ => false
  | _, .vnone => false
  | .arr k1 c1 _ s1 d1, .arr k2 c2 _ s2 d2 =>
    k1 = k2 && c1 = c2 && s1 = s2 && d1 = d2
  | .arr _ _ _ _ _, .other _ => false
  | .other _, .arr _ _ _ _ _ => false
  | .other i, .other j => i = j

/-- `sameNode(nodeA, nodeB)` (= `checkSameNode`): same name, same SIDS
type, same value type, same value, same number of children.  The children
themselves are deliberately not compared (documented "lazy" shallow
comparison). -/
def sameNode (a b : Node) : Bool :=
  checkNode a && checkNode b && a.name == b.name && a.tag == b.tag
    && sameValueType a.value b.value && checkSameValue a b
    && (a.children.length == b.children.length)

/-! ### Path-to-node and node-to-path resolution -/

mutual

/-- `getNodeFromPath(path, node)`: "this parse starts with children, not
current node"; commits to the first child whose name matches the head
segment (`-1`, not-found, is `none`).  An empty segment list cannot occur
at any call site (Python would raise `IndexError` on `path[0]`). -/
def getNodeFromPath : List String → Node → Option Node
  | path, .mk _ _ cs _ => getNodeFromPathL path cs

def getNodeFromPathL : List String → List Node → Option Node
  | _, [] => none
  | [], _ :: _ => none
  | p :: ps, c :: cs =>
    if c.name = p then
      if ps = [] then some c else getNodeFromPath ps c
    else getNodeFromPathL (p :: ps) cs

end

/-- `getNodeByPath(tree, path)`. -/
def getNodeByPath (tree : Node) (path : String) : Option Node :=
  if path = "/" then some tree
  else if ¬ checkPath path then none
  else
    let p := if path.data.take 1 = ['/'] then path.data.drop 1 else path.data
    let lpath := (splitSlashL p).map String.mk
    if tree.tag = CGNSTree_ts then
      if lpath.head? = some CGNSTree_s then
        if lpath.length = 1 then some tree
        else getNodeFromPath lpath.tail tree
      else getNodeFromPath lpath tree
    else
      getNodeFromPath lpath (Node.mk CGNSTree_s PyVal.vnone [tree] CGNSTree_ts)

/-- `getNodeByPath` when the path argument may be `None` (Python duck
typing): `None == '/'` is false and `checkPath(None)` is false, so the
result is `None`. -/
def getNodeByPathO (tree : Node) (path : Option String) : Option Node :=
  match path with
  | none => none
  | some p => getNodeByPath tree p

mutual

/-- `getPathFromNode(tree, node, path='')`: depth-first search comparing
with `checkSameNode`; the path accumulates `'/'+childname` along child
edges, so the start node's own name is not included. -/
def getPathFromNode : Node → Node → String → Option String
  | .mk nm v cs tg, node, path =>
    if sameNode node (.mk nm v cs tg) then some path
    else getPathFromNodeL cs node path

/-- The `for c in tree[2]` loop body: Python `if (p): return p` skips both
`None` and the falsy empty string. -/
def getPathFromNodeL : List Node → Node → String → Option String
  | [], _, _ => none
  | c :: cs, node, path =>
    match getPathFromNode c node (path ++ "/" ++ c.name) with
    | some p => if p = "" then getPathFromNodeL cs node path else some p
    | none => getPathFromNodeL cs node path

end

/-- `getParentFromNode(tree, node)`: path of the node, ancestor path, then
resolution of the ancestor path. -/
def getParentFromNode (tree node : Node) : Option Node :=
  getNodeByPathO tree (getPathAncestor (getPathFromNode tree node "") 1 true)

/-! ### Query engine -/

mutual

/-- `getPaths(tree, path, plist)`: depth-first pre-order accumulation of
the paths of all descendants.  The Python guard `len(c)>1 and
type(c[0])==str` always holds for representable nodes. -/
def getPaths : Node → String → List String
  | .mk _ _ cs _, path => getPathsL cs path

def getPathsL : List Node → String → List String
  | [], _ => []
  | c :: cs, path =>
    (path ++ "/" ++ c.name) :: (getPaths c (path ++ "/" ++ c.name) ++ getPathsL cs path)

end

/-- Lexicographic `<=` on character lists by code point — the comparison
Python uses to sort byte strings. -/
def strLeL : List Char → List Char → Bool
  | [], _ => true
  | _ :: _, [] => false
  | a :: as, b :: bs =>
    if a.toNat < b.toNat then true
    else if b.toNat < a.toNat then false
    else strLeL as bs

/-- Python string `<=`. -/
def strLe (a b : String) : Bool :=
  strLeL a.data b.data

/-- Insert into an already ascending list. -/
def insertAsc (s : String) : List String → List String
  | [] => [s]
  | t :: ts => if strLe s t then s :: t :: ts else t :: insertAsc s ts

/-- Ascending insertion sort.  `list.sort()` in Python is an ascending
sort; since equal strings are indistinguishable, every correct ascending
sort of the same list produces the same result, so this models it
exactly. -/
def sortStrings : List String → List String
  | [] => []
  | s :: ss => insertAsc s (sortStrings ss)

/-- `getAllPaths(tree)`: all paths, then Python `list.sort()`. -/
def getAllPaths (tree : Node) : List String :=
  sortStrings (getPaths tree "")

/-- `getPathByNameFilter(tree, filter)`, with the compiled regular
expression matcher abstracted as `reMatch pattern segment` (the `re`
module is an external collaborator of this core): a path is kept when its
`getPathToList(p, True)` segments are as many as the
`filter.split('/')[1:]` patterns and each segment matches the pattern at
its position. -/
def getPathByNameFilter (reMatch : String → String → Bool) (tree : Node) (filter : String) :
    List String :=
  let restrlist := (pathSplit filter).tail
  (getAllPaths tree).filter (fun p =>
    let pl := getPathToList (some p) true true
    pl.length = restrlist.length && (restrlist.zip pl).all (fun rp => reMatch rp.1 rp.2))

mutual

/-- `getAllNodesFromTypeSet(typelist, node, path, result)`: depth-first
pre-order; a matching child appends its path, and recursion always
continues into the children, matched or not. -/
def getAllNodesFromTypeSet : List String → List Node → String → List String
  | _, [], _ => []
  | ts, c :: cs, path =>
    getAllNodesFromTypeSetC ts c path ++ getAllNodesFromTypeSet ts cs path

/-- One child's contribution to `getAllNodesFromTypeSet`: its own path
when its type is in the set, followed by the recursion into its
children. -/
def getAllNodesFromTypeSetC : List String → Node → String → List String
  | ts, .mk nm _ ccs tg, path =>
    (if tg ∈ ts then [path ++ "/" ++ nm] else [])
      ++ getAllNodesFromTypeSet ts ccs (path ++ "/" ++ nm)

end

/-- `getAllNodesByTypeSet(tree, typeset)`: paths of all nodes whose type
is in the set, in depth-first pre-order (no sorting). -/
def getAllNodesByTypeSet (tree : Node) (typeset : List String) : List String :=
  let start := if tree.tag = CGNSTree_ts then "" else tree.name
  getAllNodesFromTypeSet typeset tree.children start

/-! ### Value typing and `setValue` -/

/-- CGNS data-type names from the keyword module. -/
def Character_s : String := "Character"

def RealSingle_s : String := "RealSingle"

def RealDouble_s : String := "RealDouble"

def Integer_s : String := "Integer"

def LongInteger_s : String := "LongInteger"

/-- `getValueType(v)`: `None` for absent or unrecognized values, else the
CGNS data-type name decided by the numpy dtype kind and char. -/
def getValueType : PyVal → Option String
  | .vnone => none
  | .arr kind dchar _ _ _ =>
    if kind = 'S' ∨ kind = 'a' then some Character_s
    else if dchar = 'f' then some RealSingle_s
    else if dchar = 'd' then some RealDouble_s
    else if dchar = 'i' then some Integer_s
    else if dchar = 'l' then some LongInteger_s
    else none
  | .other _ => none

/-- `t in [CK.Integer_s, CK.LongInteger_s, CK.RealDouble_s,
CK.RealSingle_s, CK.Character_s]` (with `t` possibly `None`). -/
def recognizedDataType : Option String → Bool
  | some t => t ∈ [Integer_s, LongInteger_s, RealDouble_s, RealSingle_s, Character_s]
  | none => false

/-- `setValue(node, value)`: a `None` node passes through; a value of
unrecognized type clears the value slot to `None`, a recognized one is
stored.  The two `if` statements of the source are sequential; they are
exclusive because `getValueType` only returns `None` or a recognized
name. -/
def setValue (node : Option Node) (value : PyVal) : Option Node :=
  match node with
  | none => none
  | some n =>
    let t := getValueType value
    let n := if t = none then Node.mk n.name PyVal.vnone n.children n.tag else n
    let n := if recognizedDataType t then Node.mk n.name value n.children n.tag else n
    some n

/-! ### Root-node check -/

deriving instance DecidableEq for Except

/-- Result of `isRootNode`: a boolean, or — when `version=True` — the
version number `n[1][0]` read off the `CGNSLibraryVersion` child (its
first array element; indexing an empty array, which would raise in
Python, yields the default 0 here). -/
inductive RootRet where
  | b (x : Bool) : RootRet
  | ver (x : Int) : RootRet
deriving DecidableEq, Repr

/-- `n[1][0]` for the version return of `isRootNode`. -/
def firstData : PyVal → Int
  | .arr _ _ _ _ d => d.headD 0
  | _ => 0

/-- The `for n in start[2]` loop of `isRootNode`, with `versionfound`
threaded through.  A second version child raises error 99 only in
`dienow` mode; when the loop completes, the source returns `True` on both
branches of the final `if versionfound` (sic). -/
def isRootNodeLoop (cs : List Node) (versionfound : Bool) (version dienow : Bool) :
    Except Nat RootRet :=
  match cs with
  | [] => if versionfound then .ok (.b true) else .ok (.b true)
  | n :: rest =>
    match checkNodeE n dienow with
    | .error e => .error e
    | .ok false => .ok (.b false)
    | .ok true =>
      if n.name = CGNSLibraryVersion_s ∧ n.tag = CGNSLibraryVersion_ts then
        if versionfound ∧ dienow then .error 99
        else if version ∧ n.value ≠ PyVal.vnone then .ok (.ver (firstData n.value))
        else isRootNodeLoop rest true version dienow
      else if n.tag ≠ CGNSBase_ts then
        if dienow then .error 91 else .ok (.b false)
      else isRootNodeLoop rest versionfound version dienow

/-- `isRootNode(node, legacy=False, version=False, dienow=False)`.  The
initial `start=[None,None,[node],None]` of the source is dead: every
reachable path rebinds `start=node` before the loop. -/
def isRootNode (node : Option Node) (legacy version dienow : Bool) : Except Nat RootRet :=
  match node with
  | none => if dienow then .error 90 else .ok (.b false)
  | some nd =>
    match checkNodeE nd dienow with
    | .error e => .error e
    | .ok false => .ok (.b false)
    | .ok true =>
      if ¬ legacy ∧ nd.tag ≠ CGNSTree_ts then .ok (.b false)
      else isRootNodeLoop nd.children false version dienow

/-- `checkRootNode(node, legacy=False, dienow=False)`: the source forwards
`dienow` into the `version` positional slot of `isRootNode`, so the
raising mode is never reached through this wrapper. -/
def checkRootNode (node : Option Node) (legacy dienow : Bool) : Except Nat RootRet :=
  isRootNode node legacy dienow false

/-- The loop's version-child test:
`n[0]==CGNSLibraryVersion_s and n[3]==CGNSLibraryVersion_ts`. -/
def isVersionChild (c : Node) : Bool :=
  c.name == CGNSLibraryVersion_s && c.tag == CGNSLibraryVersion_ts

/-! ### Node deletion -/

/-- The scan of `removeChildByName`: delete the first child carrying the
name, leave the rest untouched. -/
def removeFirstByName : List Node → String → List Node
  | [], _ => []
  | c :: cs, name => if c.name = name then cs else c :: removeFirstByName cs name

/-- `removeChildByName(parent, name)`: functional image of the in-place
`del parent[2][n]` (the Python function returns `None` and mutates its
argument).  An ill-formed parent is left untouched. -/
def removeChildByName (parent : Node) (name : String) : Node :=
  if ¬ checkNode parent then parent
  else Node.mk parent.name parent.value (removeFirstByName parent.children name) parent.tag

mutual

/-- Functional image of mutating the node that `getNodeFromPath` resolves
inside `node`: the identical traversal, rebuilding the spine, with `f`
applied at the resolved node; `none` when the path does not resolve. -/
def modifyNodeFromPath : List String → Node → (Node → Node) → Option Node
  | path, .mk nm v cs tg, f =>
    match modifyNodeFromPathL path cs f with
    | some cs2 => some (Node.mk nm v cs2 tg)
    | none => none

def modifyNodeFromPathL : List String → List Node → (Node → Node) → Option (List Node)
  | _, [], _ => none
  | [], _ :: _, _ => none
  | p :: ps, c :: cs, f =>
    if c.name = p then
      if ps = [] then some (f c :: cs)
      else
        match modifyNodeFromPath ps c f with
        | some c2 => some (c2 :: cs)
        | none => none
    else
      match modifyNodeFromPathL (p :: ps) cs f with
      | some cs2 => some (c :: cs2)
      | none => none

end

/-- Functional image of `getNodeByPath(tree, path)` followed by in-place
mutation `f` of the resolved node: rebuilds `tree` with `f` applied at the
resolved position, `none` exactly when `getNodeByPath` returns `None`.
In the wrapper branch (a non-`CGNSTree_t` tree) the temporary
`[CGNSTree, None, [tree], CGNSTree_t]` node aliases `tree`, so a mutation
found through the wrapper lands inside `tree`. -/
def modifyByPath (tree : Node) (path : Option String) (f : Node → Node) : Option Node :=
  match path with
  | none => none
  | some path =>
    if path = "/" then some (f tree)
    else if ¬ checkPath path then none
    else
      let p := if path.data.take 1 = ['/'] then path.data.drop 1 else path.data
      let lpath := (splitSlashL p).map String.mk
      if tree.tag = CGNSTree_ts then
        if lpath.head? = some CGNSTree_s then
          if lpath.length = 1 then some (f tree)
          else modifyNodeFromPath lpath.tail tree f
        else modifyNodeFromPath lpath tree f
      else
        match modifyNodeFromPathL lpath [tree] f with
        | some [t2] => some t2
        | _ => none

/-- `nodeDelete(tree, path)` with a string argument (the node-argument
form goes through `getPathFromRoot` first): compute the ancestor path and
the leaf name, resolve the ancestor, detach the leaf from its children by
name; no-op when the ancestor equals the path or does not resolve.
`modifyByPath` is the functional image of the source's
`getNodeByPath`-then-mutate sequence. -/
def nodeDelete (tree : Node) (path : String) : Node :=
  let pp := getPathAncestor (some path) 1 true
  let pc := getPathLeaf (some path)
  if pp ≠ some path then
    match modifyByPath tree pp (fun np => removeChildByName np pc) with
    | some t2 => t2
    | none => tree
  else tree

/-! ### Common ancestor of a path list -/

/-- First index at which two segment lists differ, scanning only up to
the shorter length (Python `for n in range(min(len(p),len(r)))`). -/
def firstDiff : List String → List String → Option Nat
  | [], _ => none
  | _, [] => none
  | a :: as, b :: bs => if a ≠ b then some 0 else (firstDiff as bs).map (· + 1)

/-- Body of the `for p in lp` loop of `getPathListCommonAncestor`:
on a mismatch at `n` keep `r[:n]`; with no mismatch Python falls to the
`for ... else` with the last `n` of the range, i.e. `r[:m]` — except that
an empty range leaves the initialization `n = 0` in place and keeps
`r[:1]` (sic). -/
def caStep (t p : List String) : List String :=
  let m := min p.length t.length
  match firstDiff p t with
  | some n => t.take n
  | none => if m = 0 then t.take 1 else t.take m

/-- `getPathListCommonAncestor(pathlist)`.  The Python `for` loop returns
`'/'` as soon as it meets a literal `'/'` element, which is equivalent to
the up-front membership test used here. -/
def getPathListCommonAncestor (pathlist : List String) : String :=
  if pathlist.length = 0 then "/"
  else if pathlist.length = 1 then pathlist.headD ""
  else if pathlist.contains "/" then "/"
  else
    let lp := pathlist.map (fun p => getPathToList (some p) true true)
    let t := lp.foldl caStep (lp.headD [])
    if t ≠ [] then joinPath ("" :: t) else "/"

/-! ### Tree-wide auxiliary predicates (used to state the claims) -/

mutual

/-- All subtree positions of a node: the node itself, then its
descendants in depth-first order. -/
def allSubtrees : Node → List Node
  | .mk nm v cs tg => .mk nm v cs tg :: allSubtreesL cs

def allSubtreesL : List Node → List Node
  | [] => []
  | c :: cs => allSubtrees c ++ allSubtreesL cs

end

/-- Number of subtree positions of `t` that `sameNode`-match `n` — the
notion of structural uniqueness used by `getPathFromNode`. -/
def countSame (n t : Node) : Nat :=
  (allSubtrees t).countP (fun m => sameNode n m)

/-- Pairwise-distinct strings. -/
def distinctStrings : List String → Bool
  | [] => true
  | s :: r => !r.contains s && distinctStrings r

mutual

/-- No two siblings anywhere in the (sub)tree share a name. -/
def uniqueChildNames : Node → Bool
  | .mk _ _ cs _ => distinctStrings (cs.map Node.name) && uniqueChildNamesL cs

def uniqueChildNamesL : List Node → Bool
  | [] => true
  | c :: cs => uniqueChildNames c && uniqueChildNamesL cs

end

mutual

/-- Every node of the (sub)tree is well-formed (`checkNode`). -/
def allNodesWF : Node → Bool
  | .mk nm v cs tg => checkNode (.mk nm v cs tg) && allNodesWFL cs

def allNodesWFL : List Node → Bool
  | [] => true
  | c :: cs => allNodesWF c && allNodesWFL cs

end

mutual

/-- Every strict descendant has a `checkName`-legal name that is not the
reserved synthetic-root name `CGNSTree`. -/
def goodNames : Node → Bool
  | .mk _ _ cs _ => goodNamesL cs

def goodNamesL : List Node → Bool
  | [] => true
  | c :: cs =>
    checkName c.name false && !(c.name == CGNSTree_s) && goodNames c && goodNamesL cs

end

/-- The docstring example of `getPathNormalize` evaluates as documented. -/
theorem getPathNormalize_docstring_example :
    getPathNormalize "///Base/././//Zone/../Zone/./ZoneBC//." = "/Base/Zone/ZoneBC" := by
  decide

theorem getPathNormalize_empty : getPathNormalize "" = "." := by decide

theorem getPathNormalize_root : getPathNormalize "/" = "/" := by decide

theorem checkName_base1 : checkName "Base1" false = true := by decide

theorem checkPath_base_zone : checkPath "/Base/Zone" = true := by decide

theorem checkPath_root : checkPath "/" = false := by decide

/-! ### Specification-side definitions used for comparison -/

/-- Specification-side longest common prefix of two segment lists
("longest prefix (as a segment list) shared by all paths"). -/
def lcpSegs : List String → List String → List String
  | a :: as, b :: bs => if a = b then a :: lcpSegs as bs else []
  | _, _ => []

/-- Specification-side common ancestor of a list of segment lists: fold
of the two-list longest common prefix. -/
def commonAncestorSpec : List (List String) → List String
  | [] => []
  | t :: rest => rest.foldl lcpSegs t

/-! ### Concrete witness trees -/

/-- A `CGNSLibraryVersion` child. -/
def versionNode : Node := Node.mk "CGNSLibraryVersion" PyVal.vnone [] "CGNSLibraryVersion_t"

/-- A root with two library-version children. -/
def doubleVersionRoot : Node :=
  Node.mk "CGNSTree" PyVal.vnone [versionNode, versionNode] "CGNSTree_t"

/-- A tiny compliant tree: `CGNSTree` root, one base. -/
def oneBaseTree : Node :=
  Node.mk "CGNSTree" PyVal.vnone [Node.mk "Base" PyVal.vnone [] "CGNSBase_t"] "CGNSTree_t"

/-- A root whose two `Zone_t` children are deliberately not in
lexicographic order. -/
def unsortedTree : Node :=
  Node.mk "CGNSTree" PyVal.vnone
    [Node.mk "B" PyVal.vnone [] "Zone_t", Node.mk "A" PyVal.vnone [] "Zone_t"] "CGNSTree_t"

/-- A `CGNSLibraryVersion` child carrying the version array. -/
def valuedVersionNode : Node :=
  Node.mk "CGNSLibraryVersion" (PyVal.arr 'R' 'f' false [1] [3]) [] "CGNSLibraryVersion_t"

/-- A root whose children *contain* two library-version children — one
valued — mixed with a base. -/
def mixedDoubleVersionRoot : Node :=
  Node.mk "CGNSTree" PyVal.vnone
    [valuedVersionNode, Node.mk "Base" PyVal.vnone [] "CGNSBase_t", versionNode] "CGNSTree_t"

/-! ## The claims -/

/-- C10: for every node `t` — well-formed or not — `getNodeByPath(t, '/')`
returns `t` itself: the `'/'` case is answered before path validation and
before any child traversal. -/
theorem C10_getNodeByPath_slash_self (t : Node) : getNodeByPath t "/" = some t := rfl

/-- C4 (code bug): the source documents "Returns itself if node is root",
but `getParentFromNode(tree, tree)` computes path `''`, whose
`getPathAncestor` is `None`, and `getNodeByPath(tree, None)` is `None` —
so the call returns `None`, not the root, already on a minimal
well-formed tree. -/
theorem C4_getParentFromNode_of_root_is_none :
    checkNode oneBaseTree = true ∧
      getPathFromNode oneBaseTree oneBaseTree "" = some "" ∧
      getParentFromNode oneBaseTree oneBaseTree = none := by decide

/-- C8: for every node and every value, `setValue` stores the value
exactly when its inferred data type is recognized (character, 32/64-bit
integer, 32/64-bit real) and otherwise clears the value slot to absent;
it always returns the node (no error). -/
theorem C8_setValue_recognized_or_clear (nm : String) (v : PyVal) (cs : List Node)
    (tg : String) (value : PyVal) :
    setValue (some (Node.mk nm v cs tg)) value =
      some (Node.mk nm
        (if recognizedDataType (getValueType value) then value else PyVal.vnone) cs tg) := by
  cases value with
  | vnone => simp [setValue, getValueType, recognizedDataType, Node.name, Node.children, Node.tag]
  | other i => simp [setValue, getValueType, recognizedDataType, Node.name, Node.children, Node.tag]
  | arr kind dchar fortran shape data =>
    simp only [setValue, getValueType]
    split_ifs <;>
      simp_all [recognizedDataType, Character_s, RealSingle_s, RealDouble_s, Integer_s,
        LongInteger_s, Node.name, Node.children, Node.tag]

/-- C1 counterexample: the root of a tree is itself a well-formed node,
unique under `sameNode` in a one-base tree; but `getPathFromNode` returns
the empty path for it and `getNodeByPath` of the empty path is `None`,
not the root. -/
theorem C1_counterexample_root_path :
    checkNode oneBaseTree = true ∧
      countSame oneBaseTree oneBaseTree = 1 ∧
      getNodeByPathO oneBaseTree (getPathFromNode oneBaseTree oneBaseTree "") = none := by
  decide

/-- C2 counterexample: the type-set search returns depth-first pre-order,
which follows the insertion order of the children, not lexicographic
order. -/
theorem C2_counterexample_typeset_unsorted :
    getAllNodesByTypeSet unsortedTree ["Zone_t"] = ["/B", "/A"] ∧
      strLe "/B" "/A" = false := by decide

/-- C3 counterexample: a root with two library-version children is
reported as a valid root (`True`) by the default (non-raising) mode of
`isRootNode`. -/
theorem C3_counterexample_default_mode_accepts :
    (doubleVersionRoot.children.countP
        (fun c => c.name == CGNSLibraryVersion_s && c.tag == CGNSLibraryVersion_ts)) = 2 ∧
      isRootNode (some doubleVersionRoot) false false false = Except.ok (RootRet.b true) := by
  decide

/-- C5 counterexample: deleting the path `'/'` is a no-op (its ancestor is
`None`), after which resolving `'/'` still returns the whole tree — not
`None` as the claim demands for every path. -/
theorem C5_counterexample_delete_slash :
    nodeDelete oneBaseTree "/" = oneBaseTree ∧
      getNodeByPath (nodeDelete oneBaseTree "/") "/" = some oneBaseTree := by decide

/-- C6 counterexample: with `['/A', '']` the second path normalizes to an
empty segment list, so the longest shared prefix is empty and the claim
demands `'/'`; but the loop's `for ... else` with an empty range keeps
`r[:1]` and the function returns `'/A'`. -/
theorem C6_counterexample_empty_path :
    lcpSegs (getPathToList (some "/A") true true) (getPathToList (some "") true true) = [] ∧
      getPathListCommonAncestor ["/A", ""] = "/A" := by decide

/-- C7 counterexample: on a POSIX system `os.path.normpath` leaves
backslashes alone and the trailing `.replace('\\','/')` then manufactures
fresh separators, so a path containing backslashes may need a second
normalization pass: normalization is not idempotent on `'a\.\b'`. -/
theorem C7_counterexample_backslash :
    getPathNormalize "a\\.\\b" = "a/./b" ∧
      getPathNormalize (getPathNormalize "a\\.\\b") = "a/b" ∧
      getPathNormalize (getPathNormalize "a\\.\\b") ≠ getPathNormalize "a\\.\\b" := by decide

/-- A well-formed node passes `checkNodeE` in both modes. -/
theorem checkNodeE_of_checkNode {n : Node} (h : checkNode n = true) (d : Bool) :
    checkNodeE n d = .ok true := by
  rcases hv : n.value with _ | ⟨k, c, f, s, d2⟩ | i
  · simp [checkNodeE, hv]
  · simp [checkNodeE, hv]
  · simp [checkNode, hv] at h

/-- If non-strict `checkName` accepts, every one of its guard conditions
failed. -/
theorem checkName_sound (nm : String) (hn : checkName nm false = true) :
    ¬ nm.length = 0 ∧ nm.data.all nameChar = true ∧ ¬ 32 < nm.length ∧
      ¬ (nm = "." ∨ nm = "..") ∧ ¬ (nm.data.all fun c => c == ' ') = true := by
  unfold checkName at hn
  split_ifs at hn with h1 h2 h3 h4 h5 <;> exact ⟨h1, h2, h3, h4, h5⟩

/-- C9: `checkName` in non-strict mode returns `False` for a name
containing `'/'`, for the empty name, for `'.'` and `'..'`, for any name
longer than 32 characters, for an all-space name, and for a name holding a
character outside letters, digits, punctuation and space; it returns
`True` for `"Base1"`. -/
theorem C9_checkName_rules (nm : String) :
    (('/' ∈ nm.data) → checkName nm false = false)
    ∧ checkName "" false = false
    ∧ checkName "." false = false
    ∧ checkName ".." false = false
    ∧ (32 < nm.length → checkName nm false = false)
    ∧ (nm.data.all (fun c => c == ' ') = true → checkName nm false = false)
    ∧ ((∃ c ∈ nm.data, ¬ (32 ≤ c.toNat ∧ c.toNat ≤ 126)) → checkName nm false = false)
    ∧ checkName "Base1" false = true := by
  refine ⟨?_, by decide, by decide, by decide, ?_, ?_, ?_, by decide⟩
  · intro hmem
    cases hcn : checkName nm false with
    | false => rfl
    | true =>
      exfalso
      have h := (checkName_sound nm hcn).2.1
      rw [List.all_eq_true] at h
      exact absurd (h '/' hmem) (by decide)
  · intro hlen
    cases hcn : checkName nm false with
    | false => rfl
    | true => exact absurd hlen (checkName_sound nm hcn).2.2.1
  · intro hsp
    cases hcn : checkName nm false with
    | false => rfl
    | true => exact absurd hsp (checkName_sound nm hcn).2.2.2.2
  · intro hbad
    obtain ⟨c, hc, hout⟩ := hbad
    cases hcn : checkName nm false with
    | false => rfl
    | true =>
      exfalso
      have h := (checkName_sound nm hcn).2.1
      rw [List.all_eq_true] at h
      have hnc := h c hc
      simp only [nameChar, Bool.and_eq_true, decide_eq_true_eq] at hnc
      exact hout ⟨hnc.1.1, hnc.1.2⟩

/-- Witness for C9 at concrete names: a separator name, a 33-character
name, an all-space name, a name with a control character, all rejected. -/
theorem C9_checkName_rules_witness :
    checkName "A/B" false = false
    ∧ checkName (String.mk (List.replicate 33 'x')) false = false
    ∧ checkName "   " false = false
    ∧ checkName (String.mk ['B', Char.ofNat 7]) false = false :=
  ⟨(C9_checkName_rules "A/B").1 (by decide),
   (C9_checkName_rules (String.mk (List.replicate 33 'x'))).2.2.2.2.1 (by decide),
   (C9_checkName_rules "   ").2.2.2.2.2.1 (by decide),
   (C9_checkName_rules (String.mk ['B', Char.ofNat 7])).2.2.2.2.2.2.1
     ⟨Char.ofNat 7, by decide, by decide⟩⟩

/-- One step of the `for n in start[2]` loop on a well-formed child, with
the `checkNode` guard resolved. -/
theorem isRootNodeLoop_cons_wf {c : Node} (hc : checkNode c = true) (rest : List Node)
    (vf version dienow : Bool) :
    isRootNodeLoop (c :: rest) vf version dienow
      = (if c.name = CGNSLibraryVersion_s ∧ c.tag = CGNSLibraryVersion_ts then
           if vf = true ∧ dienow = true then Except.error 99
           else if version = true ∧ c.value ≠ PyVal.vnone then
             Except.ok (RootRet.ver (firstData c.value))
           else isRootNodeLoop rest true version dienow
         else if c.tag ≠ CGNSBase_ts then
           if dienow = true then Except.error 91 else Except.ok (RootRet.b false)
         else isRootNodeLoop rest vf version dienow) := by
  rw [isRootNodeLoop, checkNodeE_of_checkNode hc]

/-- In raising (`dienow`) mode, with well-formed children and enough
version children ahead (one if a version child was already found, two
otherwise), the loop stops with a structural error: 99 at the repeated
version child, or 91 at an earlier non-base child. -/
theorem isRootNodeLoop_dienow_error :
    ∀ cs : List Node, (∀ c ∈ cs, checkNode c = true) →
      (1 ≤ cs.countP isVersionChild →
        isRootNodeLoop cs true false true = Except.error 99
          ∨ isRootNodeLoop cs true false true = Except.error 91)
      ∧ (2 ≤ cs.countP isVersionChild →
        isRootNodeLoop cs false false true = Except.error 99
          ∨ isRootNodeLoop cs false false true = Except.error 91) := by
  intro cs
  induction cs with
  | nil =>
    intro _
    constructor
    · intro hcount
      rw [List.countP_nil] at hcount
      simp at hcount
    · intro hcount
      rw [List.countP_nil] at hcount
      simp at hcount
  | cons c rest ih =>
    intro hwf
    have hc := hwf c (by simp)
    have ihr := ih (fun x hx => hwf x (List.mem_cons_of_mem _ hx))
    constructor
    · intro hcount
      rw [isRootNodeLoop_cons_wf hc]
      by_cases hvc : c.name = CGNSLibraryVersion_s ∧ c.tag = CGNSLibraryVersion_ts
      · rw [if_pos hvc, if_pos ⟨rfl, rfl⟩]
        exact Or.inl rfl
      · have hind : isVersionChild c = false := by
          rw [isVersionChild, Bool.eq_false_iff]
          intro hcon
          rw [Bool.and_eq_true, beq_iff_eq, beq_iff_eq] at hcon
          exact hvc hcon
        have hzero : (if isVersionChild c = true then 1 else 0) = 0 := by rw [hind]; decide
        rw [if_neg hvc]
        by_cases hbase : c.tag = CGNSBase_ts
        · rw [if_neg (not_not_intro hbase)]
          refine ihr.1 ?_
          rw [List.countP_cons, hzero] at hcount
          omega
        · rw [if_pos hbase, if_pos rfl]
          exact Or.inr rfl
    · intro hcount
      rw [isRootNodeLoop_cons_wf hc]
      by_cases hvc : c.name = CGNSLibraryVersion_s ∧ c.tag = CGNSLibraryVersion_ts
      · have hind : isVersionChild c = true := by
          rw [isVersionChild]
          simp [hvc.1, hvc.2]
        have hone : (if isVersionChild c = true then 1 else 0) = 1 := by rw [hind]; decide
        rw [if_pos hvc, if_neg (by simp), if_neg (by simp)]
        refine ihr.1 ?_
        rw [List.countP_cons, hone] at hcount
        omega
      · have hind : isVersionChild c = false := by
          rw [isVersionChild, Bool.eq_false_iff]
          intro hcon
          rw [Bool.and_eq_true, beq_iff_eq, beq_iff_eq] at hcon
          exact hvc hcon
        have hzero : (if isVersionChild c = true then 1 else 0) = 0 := by rw [hind]; decide
        rw [if_neg hvc]
        by_cases hbase : c.tag = CGNSBase_ts
        · rw [if_neg (not_not_intro hbase)]
          refine ihr.2 ?_
          rw [List.countP_cons, hzero] at hcount
          omega
        · rw [if_pos hbase, if_pos rfl]
          exact Or.inr rfl

/-- In default (non-raising, non-version) mode the loop returns `True` as
soon as every child is well-formed and every non-version child is
base-typed, regardless of how many version children occur. -/
theorem isRootNodeLoop_default_ok :
    ∀ (cs : List Node) (vf : Bool),
      (∀ c ∈ cs, checkNode c = true) →
      (∀ c ∈ cs, (c.name = CGNSLibraryVersion_s ∧ c.tag = CGNSLibraryVersion_ts)
        ∨ c.tag = CGNSBase_ts) →
      isRootNodeLoop cs vf false false = Except.ok (RootRet.b true) := by
  intro cs
  induction cs with
  | nil =>
    intro vf _ _
    cases vf <;> rfl
  | cons c rest ih =>
    intro vf hwf hshape
    have hc := hwf c (by simp)
    rw [isRootNodeLoop_cons_wf hc]
    by_cases hvc : c.name = CGNSLibraryVersion_s ∧ c.tag = CGNSLibraryVersion_ts
    · rw [if_pos hvc, if_neg (by simp), if_neg (by simp)]
      exact ih true (fun x hx => hwf x (List.mem_cons_of_mem _ hx))
        (fun x hx => hshape x (List.mem_cons_of_mem _ hx))
    · have hbase : c.tag = CGNSBase_ts := (hshape c (by simp)).resolve_left hvc
      rw [if_neg hvc, if_neg (not_not_intro hbase)]
      exact ih vf (fun x hx => hwf x (List.mem_cons_of_mem _ hx))
        (fun x hx => hshape x (List.mem_cons_of_mem _ hx))

/-- C3 amended: for a well-formed node (typed root or legacy) with
well-formed children whose children list contains two or more
library-version children (valued or not, mixed with other children), the
raising (`dienow`) mode of the root check reports a structural error —
code 99 at the repeated version child, or code 91 at an earlier non-base
child — while the default mode never reports the duplicate: whenever
every non-version child is base-typed it returns `True`, reporting the
node as a valid root. -/
theorem C3_amended_duplicate_version (nm : String) (v : PyVal) (cs : List Node) (tg : String)
    (legacy : Bool)
    (hwf : checkNode (Node.mk nm v cs tg) = true)
    (htag : tg = CGNSTree_ts ∨ legacy = true)
    (hcs : ∀ c ∈ cs, checkNode c = true)
    (htwo : 2 ≤ cs.countP isVersionChild) :
    (isRootNode (some (Node.mk nm v cs tg)) legacy false true = Except.error 99
      ∨ isRootNode (some (Node.mk nm v cs tg)) legacy false true = Except.error 91)
    ∧ ((∀ c ∈ cs, (c.name = CGNSLibraryVersion_s ∧ c.tag = CGNSLibraryVersion_ts)
          ∨ c.tag = CGNSBase_ts) →
        isRootNode (some (Node.mk nm v cs tg)) legacy false false =
          Except.ok (RootRet.b true)) := by
  have htc : ¬ (¬ legacy = true ∧ ¬ Node.tag (Node.mk nm v cs tg) = CGNSTree_ts) := by
    rcases htag with h | h
    · intro hc
      exact hc.2 h
    · intro hc
      exact hc.1 h
  constructor
  · simp only [isRootNode, checkNodeE_of_checkNode hwf, if_neg htc]
    exact (isRootNodeLoop_dienow_error cs hcs).2 htwo
  · intro hshape
    simp only [isRootNode, checkNodeE_of_checkNode hwf, if_neg htc]
    exact isRootNodeLoop_default_ok cs false hcs hshape

/-- Witness for the amended C3 at a root containing a valued and a plain
version child around a base: `dienow` raises 99, the default mode reports
a valid root. -/
theorem C3_amended_duplicate_version_witness :
    2 ≤ mixedDoubleVersionRoot.children.countP isVersionChild
    ∧ isRootNode (some mixedDoubleVersionRoot) false false true = Except.error 99
    ∧ isRootNode (some mixedDoubleVersionRoot) false false false =
        Except.ok (RootRet.b true) :=
  ⟨by decide,
   ((C3_amended_duplicate_version "CGNSTree" PyVal.vnone
      [valuedVersionNode, Node.mk "Base" PyVal.vnone [] "CGNSBase_t", versionNode]
      "CGNSTree_t" false (by decide) (Or.inl rfl) (by decide) (by decide)).1).resolve_right
     (by decide),
   (C3_amended_duplicate_version "CGNSTree" PyVal.vnone
      [valuedVersionNode, Node.mk "Base" PyVal.vnone [] "CGNSBase_t", versionNode]
      "CGNSTree_t" false (by decide) (Or.inl rfl) (by decide) (by decide)).2 (by decide)⟩

theorem lcpSegs_nil_right (t : List String) : lcpSegs t [] = [] := by
  cases t <;> rfl

theorem lcpSegs_self (t : List String) : lcpSegs t t = t := by
  induction t with
  | nil => rfl
  | cons a as ih => simp [lcpSegs, ih]

/-- When the scan of `firstDiff` reports a mismatch at `n`, the first `n`
elements are the longest common prefix. -/
theorem take_firstDiff_eq_lcpSegs :
    ∀ (p t : List String) (n : Nat), firstDiff p t = some n → t.take n = lcpSegs t p := by
  intro p
  induction p with
  | nil =>
    intro t n h
    simp [firstDiff] at h
  | cons b bs ih =>
    intro t n h
    cases t with
    | nil => exact Option.noConfusion (show (none : Option Nat) = some n from h)
    | cons a as =>
      by_cases hba : b = a
      · subst hba
        rw [firstDiff, if_neg (by simp)] at h
        rcases hfd : firstDiff bs as with _ | m
        · rw [hfd] at h
          exact Option.noConfusion (show (none : Option Nat) = some n from h)
        · rw [hfd] at h
          obtain rfl : m + 1 = n := Option.some.inj h
          simp only [List.take_succ_cons, lcpSegs]
          simp [ih as m hfd]
      · rw [firstDiff, if_pos hba] at h
        obtain rfl : 0 = n := Option.some.inj h
        simp only [List.take_zero, lcpSegs]
        rw [if_neg (fun hh => hba hh.symm)]

/-- When `firstDiff` finds no mismatch, the whole common part (up to the
shorter length) is the longest common prefix. -/
theorem take_min_eq_lcpSegs :
    ∀ (p t : List String), firstDiff p t = none →
      t.take (min p.length t.length) = lcpSegs t p := by
  intro p
  induction p with
  | nil =>
    intro t h
    simp [lcpSegs_nil_right]
  | cons b bs ih =>
    intro t h
    cases t with
    | nil =>
      have hne : firstDiff (b :: bs) ([] : List String) = none := rfl
      simp [lcpSegs]
    | cons a as =>
      by_cases hba : b = a
      · subst hba
        rw [firstDiff, if_neg (by simp)] at h
        have hfd : firstDiff bs as = none := by
          rcases hfd2 : firstDiff bs as with _ | m
          · rfl
          · rw [hfd2] at h
            simp at h
        simp only [List.length_cons, Nat.succ_min_succ, List.take_succ_cons, lcpSegs,
          if_pos rfl]
        simp [ih as hfd]
      · rw [firstDiff, if_pos hba] at h
        simp at h

/-- The loop body of `getPathListCommonAncestor` computes the two-list
longest common prefix whenever the incoming path list is nonempty (or the
accumulator is already empty); only an empty incoming list with a
nonempty accumulator triggers the `r[:1]` quirk. -/
theorem caStep_eq_lcpSegs (t p : List String) (hp : p ≠ [] ∨ t = []) :
    caStep t p = lcpSegs t p := by
  simp only [caStep]
  rcases hfd : firstDiff p t with _ | n
  · by_cases hm : min p.length t.length = 0
    · have ht : t = [] := by
        rcases hp with hpe | hte
        · rcases p with _ | ⟨x, xs⟩
          · exact absurd rfl hpe
          · rcases t with _ | ⟨y, ys⟩
            · rfl
            · simp [Nat.succ_min_succ] at hm
        · exact hte
      subst ht
      rw [if_pos hm]
      cases p <;> simp [lcpSegs]
    · rw [if_neg hm]
      exact take_min_eq_lcpSegs p t hfd
  · exact take_firstDiff_eq_lcpSegs p t n hfd

/-- Fold form of the previous lemma: over nonempty path lists the loop is
the fold of the longest common prefix. -/
theorem foldl_caStep_eq_lcp (lp : List (List String)) :
    ∀ t0, (∀ p ∈ lp, p ≠ []) → lp.foldl caStep t0 = lp.foldl lcpSegs t0 := by
  induction lp with
  | nil =>
    intro t0 h
    rfl
  | cons p ps ih =>
    intro t0 h
    simp only [List.foldl_cons]
    rw [caStep_eq_lcpSegs t0 p (Or.inl (h p (by simp)))]
    exact ih _ (fun x hx => h x (by simp [hx]))

/-- C6 amended: `getPathListCommonAncestor` returns `'/'` for the empty
list, the path itself for a singleton, and — provided every path
normalizes to a nonempty segment list — the longest shared prefix of the
normalized segment lists, rendered absolute, with `'/'` for an empty
prefix; the spec's scenario holds.  (The counterexample shows the general
statement fails when some path normalizes to no segments at all.) -/
theorem C6_amended_common_ancestor (l : List String)
    (h : ∀ p ∈ l, getPathToList (some p) true true ≠ []) :
    getPathListCommonAncestor [] = "/"
    ∧ (∀ p : String, getPathListCommonAncestor [p] = p)
    ∧ (2 ≤ l.length →
        getPathListCommonAncestor l =
          (if commonAncestorSpec (l.map (fun p => getPathToList (some p) true true)) ≠ [] then
            joinPath
              ("" :: commonAncestorSpec (l.map (fun p => getPathToList (some p) true true)))
          else "/"))
    ∧ getPathListCommonAncestor ["/Base/Zone/A", "/Base/Zone/B", "/Base/Zone/C/D"]
        = "/Base/Zone" := by
  refine ⟨rfl, ?_, ?_, by decide⟩
  · intro p
    simp [getPathListCommonAncestor]
  · intro hlen
    rcases l with _ | ⟨p0, rest⟩
    · simp at hlen
    have hslash : (p0 :: rest).contains "/" = false := by
      rw [List.contains_eq_any_beq]
      rw [List.any_eq_false]
      intro p hp
      intro hbeq
      have hpe : p = "/" := by
        rw [beq_iff_eq] at hbeq
        exact hbeq.symm
      subst hpe
      exact absurd (by decide) (h "/" hp)
    have hrest : rest ≠ [] := by
      intro hre
      rw [hre] at hlen
      simp at hlen
    unfold getPathListCommonAncestor
    rw [if_neg (by simp), if_neg (by simpa using hrest), if_neg (by rw [hslash]; simp)]
    have hmem : ∀ q ∈ (p0 :: rest).map (fun p => getPathToList (some p) true true), q ≠ [] := by
      intro q hq
      obtain ⟨p, hp, rfl⟩ := List.mem_map.mp hq
      exact h p hp
    simp only [List.map_cons, List.headD_cons]
    rw [foldl_caStep_eq_lcp _ _ (by simpa using hmem)]
    simp only [commonAncestorSpec, List.foldl_cons, lcpSegs_self]

/-- Witness for the amended C6 on the spec's scenario (hypotheses
discharged at the concrete list). -/
theorem C6_amended_common_ancestor_witness :
    getPathListCommonAncestor ["/Base/Zone/A", "/Base/Zone/B", "/Base/Zone/C/D"]
      = "/Base/Zone" :=
  (C6_amended_common_ancestor ["/Base/Zone/A", "/Base/Zone/B", "/Base/Zone/C/D"]
    (by decide)).2.2.2

theorem strLeL_total : ∀ a b : List Char, strLeL a b = true ∨ strLeL b a = true := by
  intro a
  induction a with
  | nil =>
    intro b
    left
    rfl
  | cons x xs ih =>
    intro b
    cases b with
    | nil =>
      right
      rfl
    | cons y ys =>
      by_cases hxy : x.toNat < y.toNat
      · left
        simp [strLeL, hxy]
      · by_cases hyx : y.toNat < x.toNat
        · right
          simp [strLeL, hyx]
        · rcases ih ys with h | h
          · left
            simp [strLeL, hxy, hyx, h]
          · right
            simp [strLeL, hxy, hyx, h]

theorem strLeL_trans :
    ∀ a b c : List Char, strLeL a b = true → strLeL b c = true → strLeL a c = true := by
  intro a
  induction a with
  | nil =>
    intro b c h1 h2
    rfl
  | cons x xs ih =>
    intro b c h1 h2
    cases b with
    | nil => simp [strLeL] at h1
    | cons y ys =>
      cases c with
      | nil => simp [strLeL] at h2
      | cons z zs =>
        rw [strLeL] at h1 h2 ⊢
        by_cases hxy : x.toNat < y.toNat <;> by_cases hyz : y.toNat < z.toNat
        · simp [Nat.lt_trans hxy hyz]
        · rw [if_neg hyz] at h2
          by_cases hzy : z.toNat < y.toNat
          · rw [if_pos hzy] at h2
            exact absurd h2 (by simp)
          · have hxz : x.toNat < z.toNat := by omega
            simp [hxz]
        · rw [if_neg hxy] at h1
          by_cases hyx : y.toNat < x.toNat
          · rw [if_pos hyx] at h1
            exact absurd h1 (by simp)
          · have hxz : x.toNat < z.toNat := by omega
            simp [hxz]
        · rw [if_neg hxy] at h1
          rw [if_neg hyz] at h2
          by_cases hyx : y.toNat < x.toNat
          · rw [if_pos hyx] at h1
            exact absurd h1 (by simp)
          · by_cases hzy : z.toNat < y.toNat
            · rw [if_pos hzy] at h2
              exact absurd h2 (by simp)
            · rw [if_neg hyx] at h1
              rw [if_neg hzy] at h2
              have hxz : ¬ x.toNat < z.toNat := by omega
              have hzx : ¬ z.toNat < x.toNat := by omega
              rw [if_neg hxz, if_neg hzx]
              exact ih ys zs h1 h2

theorem mem_insertAsc {x s : String} :
    ∀ {l : List String}, x ∈ insertAsc s l → x = s ∨ x ∈ l := by
  intro l
  induction l with
  | nil =>
    intro hx
    simp [insertAsc] at hx
    exact Or.inl hx
  | cons t ts ih =>
    intro hx
    rw [insertAsc] at hx
    split_ifs at hx
    · rcases List.mem_cons.mp hx with rfl | hx2
      · exact Or.inl rfl
      · exact Or.inr hx2
    · rcases List.mem_cons.mp hx with rfl | hx2
      · exact Or.inr (by simp)
      · rcases ih hx2 with h | h
        · exact Or.inl h
        · exact Or.inr (List.mem_cons_of_mem _ h)

theorem sorted_insertAsc (s : String) :
    ∀ {l : List String}, l.Sorted (fun a b => strLe a b = true) →
      (insertAsc s l).Sorted (fun a b => strLe a b = true) := by
  intro l
  induction l with
  | nil =>
    intro _
    simp [insertAsc]
  | cons t ts ih =>
    intro hl
    rw [insertAsc]
    by_cases hst : strLe s t = true
    · rw [if_pos hst, List.sorted_cons]
      refine ⟨?_, hl⟩
      intro b hb
      rcases List.mem_cons.mp hb with rfl | hb2
      · exact hst
      · exact strLeL_trans _ _ _ hst ((List.sorted_cons.mp hl).1 b hb2)
    · rw [if_neg hst]
      rw [List.sorted_cons] at hl ⊢
      obtain ⟨ht, hts⟩ := hl
      refine ⟨?_, ih hts⟩
      intro b hb
      rcases mem_insertAsc hb with rfl | hb2
      · rcases strLeL_total t.data b.data with h | h
        · exact h
        · exact absurd h hst
      · exact ht b hb2

theorem sorted_sortStrings (l : List String) :
    (sortStrings l).Sorted (fun a b => strLe a b = true) := by
  induction l with
  | nil => simp [sortStrings]
  | cons s ss ih => exact sorted_insertAsc s ih

/-- C2 amended: the full-path enumeration (`getAllPaths`, which sorts) and
the regular-expression name filter (which filters the sorted enumeration
in order) return paths in ascending lexicographic string order — for
every tree, every matcher and every filter string; the type-set and
type-list searches are the exception (see the counterexample): they
return depth-first pre-order. -/
theorem C2_amended_sorted_queries (t : Node) (reMatch : String → String → Bool) (f : String) :
    (getAllPaths t).Sorted (fun a b => strLe a b = true)
    ∧ (getPathByNameFilter reMatch t f).Sorted (fun a b => strLe a b = true) := by
  have hs : (getAllPaths t).Sorted (fun a b => strLe a b = true) := sorted_sortStrings _
  exact ⟨hs, List.Pairwise.filter _ hs⟩

/-! ### Idempotence machinery for `getPathNormalize` -/

/-- The `'..'` component. -/
def ddComp : List Char := ['.', '.']

/-- A component that `normStep` always appends: neither empty, nor `'.'`,
nor `'..'`. -/
def plainComp (q : List Char) : Prop :=
  q ≠ [] ∧ q ≠ ['.'] ∧ q ≠ ddComp

/-- Members of a `normStep` fold come from the accumulator or from the
component list. -/
theorem mem_foldl_normStep (isl : Nat) :
    ∀ (comps acc : List (List Char)) (q : List (Char)),
      q ∈ comps.foldl (normStep isl) acc → q ∈ acc ∨ q ∈ comps := by
  intro comps
  induction comps with
  | nil =>
    intro acc q hq
    exact Or.inl hq
  | cons comp rest ih =>
    intro acc q hq
    rw [List.foldl_cons] at hq
    rcases ih _ q hq with h | h
    · unfold normStep at h
      split_ifs at h
      · exact Or.inl h
      · rcases List.mem_append.mp h with h1 | h1
        · exact Or.inl h1
        · simp at h1
          subst h1
          exact Or.inr (by simp)
      · exact Or.inl (List.dropLast_subset _ h)
      · exact Or.inl h
    · exact Or.inr (List.mem_cons_of_mem _ h)

/-- A run of plain components is appended wholesale by the fold. -/
theorem foldl_normStep_plain (isl : Nat) :
    ∀ (comps acc : List (List Char)), (∀ q ∈ comps, plainComp q) →
      comps.foldl (normStep isl) acc = acc ++ comps := by
  intro comps
  induction comps with
  | nil =>
    intro acc h
    simp
  | cons comp rest ih =>
    intro acc h
    obtain ⟨h1, h2, h3⟩ := h comp (by simp)
    have h3x : comp ≠ ['.', '.'] := h3
    rw [List.foldl_cons]
    rw [show normStep isl acc comp = acc ++ [comp] from by
      unfold normStep
      rw [if_neg (by simp [h1, h2]), if_pos (Or.inl h3x)]]
    rw [ih _ (fun q hq => h q (List.mem_cons_of_mem _ hq))]
    simp

/-- On an absolute path (`isl ≠ 0`) the accumulator never holds `''`,
`'.'` or `'..'`. -/
theorem foldl_normStep_abs_plain (isl : Nat) (hisl : isl ≠ 0) :
    ∀ (comps acc : List (List Char)), (∀ q ∈ acc, plainComp q) →
      ∀ q ∈ comps.foldl (normStep isl) acc, plainComp q := by
  intro comps
  induction comps with
  | nil =>
    intro acc hacc q hq
    exact hacc q hq
  | cons comp rest ih =>
    intro acc hacc q hq
    rw [List.foldl_cons] at hq
    refine ih _ ?_ q hq
    intro r hr
    unfold normStep at hr
    split_ifs at hr with hc1 hc2 hc3
    · exact hacc r hr
    · rcases List.mem_append.mp hr with h1 | h1
      · exact hacc r h1
      · simp at h1
        subst h1
        rcases hc2 with hne | hini | hlast
        · push_neg at hc1
          exact ⟨hc1.1, hc1.2, hne⟩
        · exact absurd hini.1 hisl
        · have hdd : ddComp ∈ acc := by
            obtain ⟨hne2, heq⟩ := List.mem_getLast?_eq_getLast (Option.mem_def.mpr hlast)
            show ['.', '.'] ∈ acc
            rw [heq]
            exact List.getLast_mem hne2
          exact absurd rfl (hacc _ hdd).2.2
    · exact hacc r (List.dropLast_subset _ hr)
    · exact hacc r hr

/-- Canonical accumulator shape of the fold on a relative path: a run of
`'..'` components followed by plain components. -/
def canonicalComps (acc : List (List Char)) : Prop :=
  ∃ k plains, acc = List.replicate k ddComp ++ plains ∧ ∀ q ∈ plains, plainComp q

/-- On a relative path (`isl = 0`) the fold preserves the canonical
shape. -/
theorem foldl_normStep_rel_canonical :
    ∀ (comps acc : List (List Char)), canonicalComps acc →
      canonicalComps (comps.foldl (normStep 0) acc) := by
  intro comps
  induction comps with
  | nil =>
    intro acc h
    exact h
  | cons comp rest ih =>
    intro comp0 h
    rw [List.foldl_cons]
    refine ih _ ?_
    obtain ⟨k, plains, rfl, hp⟩ := h
    by_cases hc1 : comp = [] ∨ comp = ['.']
    · rw [normStep, if_pos hc1]
      exact ⟨k, plains, rfl, hp⟩
    · by_cases hdd : comp = ['.', '.']
      · subst hdd
        rcases plains with _ | ⟨q0, qrest⟩
        · have hcond : (['.', '.'] ≠ ['.', '.'] ∨ ((0 : Nat) = 0 ∧
              List.replicate k ddComp ++ ([] : List (List Char)) = []) ∨
              (List.replicate k ddComp ++ ([] : List (List Char))).getLast?
                = some ['.', '.']) := by
            cases k with
            | zero => exact Or.inr (Or.inl ⟨rfl, rfl⟩)
            | succ n =>
              refine Or.inr (Or.inr ?_)
              rw [List.append_nil, List.replicate_succ', List.getLast?_concat]
              rfl
          rw [normStep, if_neg hc1, if_pos hcond]
          refine ⟨k + 1, [], ?_, by simp⟩
          rw [List.append_nil, List.append_nil, List.replicate_succ']
          rfl
        · have hlastq : (List.replicate k ddComp ++ q0 :: qrest).getLast? =
              (q0 :: qrest).getLast? := List.getLast?_append_cons _ _ _
          have hcond : ¬ (['.', '.'] ≠ ['.', '.'] ∨ ((0 : Nat) = 0 ∧
              List.replicate k ddComp ++ q0 :: qrest = []) ∨
              (List.replicate k ddComp ++ q0 :: qrest).getLast? = some ['.', '.']) := by
            push_neg
            refine ⟨rfl, fun _ => by simp, ?_⟩
            rw [hlastq]
            intro hsome
            have hdd2 : ddComp ∈ q0 :: qrest := by
              obtain ⟨hne2, heq⟩ :=
                List.mem_getLast?_eq_getLast (Option.mem_def.mpr hsome)
              show ['.', '.'] ∈ q0 :: qrest
              rw [heq]
              exact List.getLast_mem hne2
            exact absurd rfl (hp _ hdd2).2.2
          rw [normStep, if_neg hc1, if_neg hcond,
            if_pos (by simp : List.replicate k ddComp ++ q0 :: qrest ≠ []),
            List.dropLast_append_of_ne_nil _ (by simp)]
          exact ⟨k, (q0 :: qrest).dropLast, rfl,
            fun q hq => hp q (List.dropLast_subset _ hq)⟩
      · have hplain : plainComp comp := by
          push_neg at hc1
          exact ⟨hc1.1, hc1.2, hdd⟩
        rw [normStep, if_neg hc1, if_pos (Or.inl hdd), List.append_assoc]
        refine ⟨k, plains ++ [comp], rfl, ?_⟩
        intro q hq
        rcases List.mem_append.mp hq with h1 | h1
        · exact hp q h1
        · simp at h1
          subst h1
          exact hplain

theorem normpathL_of_ne_nil (p : List Char) (hp : p ≠ []) :
    normpathL p =
      (if List.replicate (normIsl p) '/' ++
            joinSlashL ((splitSlashL p).foldl (normStep (normIsl p)) []) = []
       then ['.']
       else List.replicate (normIsl p) '/' ++
            joinSlashL ((splitSlashL p).foldl (normStep (normIsl p)) [])) := by
  rw [normpathL, if_neg hp]

/-- Characters of a join come from the segments or are `'/'`. -/
theorem mem_joinSlashL {c : Char} :
    ∀ {ls : List (List Char)}, c ∈ joinSlashL ls → (∃ s ∈ ls, c ∈ s) ∨ c = '/' := by
  intro ls
  induction ls with
  | nil =>
    intro h
    simp [joinSlashL] at h
  | cons s t ih =>
    intro h
    cases t with
    | nil => exact Or.inl ⟨s, by simp, h⟩
    | cons a b =>
      rw [joinSlashL_cons _ _ (by simp)] at h
      rcases List.mem_append.mp h with h1 | h1
      · exact Or.inl ⟨s, by simp, h1⟩
      · rcases List.mem_cons.mp h1 with rfl | h2
        · exact Or.inr rfl
        · rcases ih h2 with ⟨s2, hs2, hc2⟩ | h3
          · exact Or.inl ⟨s2, List.mem_cons_of_mem _ hs2, hc2⟩
          · exact Or.inr h3

/-- The single-character replace is the identity on backslash-free
strings. -/
theorem map_repl_id (l : List Char) (h : ∀ c ∈ l, c ≠ '\\') :
    l.map (fun c => if c = '\\' then '/' else c) = l := by
  induction l with
  | nil => rfl
  | cons c r ih =>
    rw [List.map_cons, if_neg (h c (by simp)), ih (fun x hx => h x (List.mem_cons_of_mem _ hx))]

/-- The characters of `normpathL p` come from `p`, plus `'/'` and `'.'`. -/
theorem normpathL_chars (p : List Char) (c : Char) (hc : c ∈ normpathL p) :
    c ∈ p ∨ c = '/' ∨ c = '.' := by
  by_cases hp : p = []
  · subst hp
    simp only [normpathL, if_pos rfl] at hc
    simp at hc
    exact Or.inr (Or.inr hc)
  · rw [normpathL_of_ne_nil p hp] at hc
    split_ifs at hc with hres
    · simp at hc
      exact Or.inr (Or.inr hc)
    · rcases List.mem_append.mp hc with h1 | h1
      · exact Or.inr (Or.inl (List.eq_of_mem_replicate h1))
      · rcases mem_joinSlashL h1 with ⟨s, hs, hcs⟩ | h2
        · rcases mem_foldl_normStep _ _ _ _ hs with h3 | h3
          · simp at h3
          · exact Or.inl (mem_of_mem_splitSlashL h3 hcs)
        · exact Or.inr (Or.inl h2)

/-- On a backslash-free path the trailing replace of `getPathNormalize` is
the identity, and the backslash prefix test is mute: what remains is
`normpath` after the slash-prefix guard. -/
theorem getPathNormalizeL_eq_normpathL (p : List Char) (hp : '\\' ∉ p) :
    getPathNormalizeL p =
      normpathL (if p.take 1 = ['/'] then '/' :: '/' :: '/' :: p else p) := by
  have hpre : (if p.take 1 = ['/'] ∨ p.take 1 = ['\\'] then '/' :: '/' :: '/' :: p else p)
      = (if p.take 1 = ['/'] then '/' :: '/' :: '/' :: p else p) := by
    by_cases h1 : p.take 1 = ['/']
    · rw [if_pos (Or.inl h1), if_pos h1]
    · have h2 : ¬ p.take 1 = ['\\'] := by
        intro h2
        cases p with
        | nil => simp at h2
        | cons a r =>
          simp only [List.take_succ_cons, List.take_zero] at h2
          have : a = '\\' := by simpa using h2
          exact hp (by simp [this])
      rw [if_neg (by tauto), if_neg h1]
  show (normpathL _).map _ = _
  rw [hpre]
  apply map_repl_id
  intro c hc hbs
  subst hbs
  rcases normpathL_chars _ _ hc with h1 | h1 | h1
  · split_ifs at h1 with hsl
    · rcases List.mem_cons.mp h1 with h2 | h2
      · exact absurd h2 (by decide)
      · rcases List.mem_cons.mp h2 with h3 | h3
        · exact absurd h3 (by decide)
        · rcases List.mem_cons.mp h3 with h4 | h4
          · exact absurd h4 (by decide)
          · exact hp h4
    · exact hp h1
  · exact absurd h1 (by decide)
  · exact absurd h1 (by decide)

/-- Rerunning the fold on an already canonical component list is the
identity. -/
theorem foldl_normStep_rel_run (k : Nat) (plains : List (List Char))
    (hp : ∀ q ∈ plains, plainComp q) :
    (List.replicate k ddComp ++ plains).foldl (normStep 0) [] =
      List.replicate k ddComp ++ plains := by
  have hdd : ∀ (n : Nat) (acc : List (List Char)), (acc = [] ∨ acc.getLast? = some ddComp) →
      (List.replicate n ddComp).foldl (normStep 0) acc = acc ++ List.replicate n ddComp := by
    intro n
    induction n with
    | zero =>
      intro acc h
      simp
    | succ m ih =>
      intro acc h
      rw [List.replicate_succ, List.foldl_cons]
      have hstep : normStep 0 acc ddComp = acc ++ [ddComp] := by
        rw [normStep, if_neg (by simp [ddComp])]
        rw [if_pos ?_]
        rcases h with h | h
        · exact Or.inr (Or.inl ⟨rfl, h⟩)
        · exact Or.inr (Or.inr h)
      rw [hstep, ih _ (Or.inr (by rw [List.getLast?_concat]))]
      rw [List.append_assoc]
      rfl
  rw [List.foldl_append, hdd k [] (Or.inl rfl), List.nil_append,
    foldl_normStep_plain 0 plains _ hp]

theorem joinSlashL_cons_exists (s : List Char) (t : List (List Char)) :
    ∃ r, joinSlashL (s :: t) = s ++ r := by
  cases t with
  | nil => exact ⟨[], by simp [joinSlashL]⟩
  | cons a b => exact ⟨'/' :: joinSlashL (a :: b), rfl⟩

theorem joinSlashL_head (s : List Char) (t : List (List Char)) (hs : s ≠ []) :
    ∃ c r, joinSlashL (s :: t) = c :: r ∧ c ∈ s ∧ s.head? = some c := by
  obtain ⟨r, hr⟩ := joinSlashL_cons_exists s t
  cases s with
  | nil => exact absurd rfl hs
  | cons c s2 => exact ⟨c, s2 ++ r, by simp [hr], by simp, rfl⟩

/-- Rerunning `normpath` on an already absolute-normalized path (with the
`'///'` prefix the caller adds) is the identity. -/
theorem normpath_abs_rerun (nc : List (List Char))
    (hplain : ∀ s ∈ nc, plainComp s) (hnoslash : ∀ s ∈ nc, '/' ∉ s) :
    normpathL ('/' :: '/' :: '/' :: '/' :: joinSlashL nc) = '/' :: joinSlashL nc := by
  cases nc with
  | nil => decide
  | cons s t =>
    have hisl : normIsl ('/' :: '/' :: '/' :: '/' :: joinSlashL (s :: t)) = 1 := rfl
    rw [normpathL_of_ne_nil _ (by simp), hisl]
    rw [splitSlashL_slash, splitSlashL_slash, splitSlashL_slash, splitSlashL_slash]
    rw [split_joinSlashL (s :: t) (by simp) hnoslash]
    have h0 : normStep 1 [] [] = [] := rfl
    have hfold : ([] :: [] :: [] :: [] :: (s :: t)).foldl (normStep 1) [] = s :: t := by
      rw [List.foldl_cons, h0, List.foldl_cons, h0, List.foldl_cons, h0, List.foldl_cons, h0]
      rw [foldl_normStep_plain 1 (s :: t) [] hplain]
      rfl
    rw [hfold, if_neg (by simp)]
    rfl

/-- Rerunning `normpath` on an already relative-normalized path (a `'..'`
run followed by plain components) is the identity, and such a path does
not start with a slash. -/
theorem normpath_rel_rerun (k : Nat) (plains : List (List Char))
    (hplains : ∀ s ∈ plains, plainComp s)
    (hnoslash : ∀ s ∈ List.replicate k ddComp ++ plains, '/' ∉ s)
    (hne : List.replicate k ddComp ++ plains ≠ []) :
    (joinSlashL (List.replicate k ddComp ++ plains)).take 1 ≠ ['/']
    ∧ normpathL (joinSlashL (List.replicate k ddComp ++ plains)) =
        joinSlashL (List.replicate k ddComp ++ plains) := by
  obtain ⟨s, t, hst⟩ : ∃ s t, List.replicate k ddComp ++ plains = s :: t := by
    rcases hl : List.replicate k ddComp ++ plains with _ | ⟨s, t⟩
    · exact absurd hl hne
    · exact ⟨s, t, rfl⟩
  have hs_ne : s ≠ [] := by
    have hsmem : s ∈ List.replicate k ddComp ++ plains := by
      rw [hst]
      simp
    rcases List.mem_append.mp hsmem with h | h
    · rw [List.eq_of_mem_replicate h]
      simp [ddComp]
    · exact (hplains s h).1
  have hs_noslash : '/' ∉ s := hnoslash s (by rw [hst]; simp)
  obtain ⟨c, r, hcr, hcs, hhead⟩ := joinSlashL_head s t hs_ne
  have hcslash : ¬ c = '/' := fun h => hs_noslash (h ▸ hcs)
  have htake : (joinSlashL (List.replicate k ddComp ++ plains)).take 1 ≠ ['/'] := by
    rw [hst, hcr]
    simp only [List.take_succ_cons, List.take_zero]
    intro hcon
    exact hcslash (by simpa using hcon)
  refine ⟨htake, ?_⟩
  have hisl0 : normIsl (joinSlashL (List.replicate k ddComp ++ plains)) = 0 := by
    rw [normIsl, if_neg htake]
  have hjoin_ne : joinSlashL (List.replicate k ddComp ++ plains) ≠ [] := by
    rw [hst, hcr]
    simp
  rw [normpathL_of_ne_nil _ hjoin_ne, hisl0]
  have hsplit : splitSlashL (joinSlashL (List.replicate k ddComp ++ plains)) =
      List.replicate k ddComp ++ plains := by
    rw [hst]
    exact split_joinSlashL (s :: t) (by simp)
      (fun x hx => hnoslash x (by rw [hst]; exact hx))
  rw [hsplit, foldl_normStep_rel_run k plains hplains]
  rw [if_neg (by simpa using hjoin_ne)]
  simp

/-- Core idempotence: on a backslash-free character list a second
`getPathNormalize` pass changes nothing. -/
theorem getPathNormalizeL_idem (p : List Char) (hp : '\\' ∉ p) :
    getPathNormalizeL (getPathNormalizeL p) = getPathNormalizeL p := by
  rw [getPathNormalizeL_eq_normpathL p hp]
  have hqbs : '\\' ∉ normpathL (if p.take 1 = ['/'] then '/' :: '/' :: '/' :: p else p) := by
    intro hmem
    rcases normpathL_chars _ _ hmem with h1 | h1 | h1
    · split_ifs at h1 with hsl
      · rcases List.mem_cons.mp h1 with h2 | h2
        · exact absurd h2 (by decide)
        rcases List.mem_cons.mp h2 with h3 | h3
        · exact absurd h3 (by decide)
        rcases List.mem_cons.mp h3 with h4 | h4
        · exact absurd h4 (by decide)
        · exact hp h4
      · exact hp h1
    · exact absurd h1 (by decide)
    · exact absurd h1 (by decide)
  rw [getPathNormalizeL_eq_normpathL _ hqbs]
  by_cases hA : p.take 1 = ['/']
  · rw [if_pos hA]
    have hisl : normIsl ('/' :: '/' :: '/' :: p) = 1 := rfl
    have hnorm : normpathL ('/' :: '/' :: '/' :: p)
        = '/' :: joinSlashL ((splitSlashL p).foldl (normStep 1) []) := by
      rw [normpathL_of_ne_nil _ (by simp), hisl]
      rw [splitSlashL_slash, splitSlashL_slash, splitSlashL_slash]
      rw [if_neg (by simp)]
      rfl
    rw [hnorm]
    have hplain : ∀ s ∈ (splitSlashL p).foldl (normStep 1) [], plainComp s :=
      foldl_normStep_abs_plain 1 (by decide) _ [] (by simp)
    have hnoslash : ∀ s ∈ (splitSlashL p).foldl (normStep 1) [], '/' ∉ s := by
      intro s hs
      rcases mem_foldl_normStep 1 _ _ s hs with h | h
      · simp at h
      · exact slash_not_mem_of_mem_splitSlashL h
    rw [if_pos (show List.take 1
      ('/' :: joinSlashL ((splitSlashL p).foldl (normStep 1) [])) = ['/'] from rfl)]
    exact normpath_abs_rerun _ hplain hnoslash
  · rw [if_neg hA]
    by_cases hpnil : p = []
    · subst hpnil
      decide
    · have hisl0 : normIsl p = 0 := by rw [normIsl, if_neg hA]
      have hnorm : normpathL p
          = (if joinSlashL ((splitSlashL p).foldl (normStep 0) []) = [] then ['.']
             else joinSlashL ((splitSlashL p).foldl (normStep 0) [])) := by
        rw [normpathL_of_ne_nil p hpnil, hisl0]
        rfl
      rw [hnorm]
      by_cases hjn : joinSlashL ((splitSlashL p).foldl (normStep 0) []) = []
      · rw [if_pos hjn]
        decide
      · rw [if_neg hjn]
        obtain ⟨k, plains, hnc, hplains⟩ :=
          foldl_normStep_rel_canonical (splitSlashL p) [] ⟨0, [], rfl, by simp⟩
        have hnoslash : ∀ s ∈ List.replicate k ddComp ++ plains, '/' ∉ s := by
          intro s hs
          rw [← hnc] at hs
          rcases mem_foldl_normStep 0 _ _ s hs with h | h
          · simp at h
          · exact slash_not_mem_of_mem_splitSlashL h
        have hne : List.replicate k ddComp ++ plains ≠ [] := by
          intro h0
          rw [hnc, h0] at hjn
          exact hjn rfl
        obtain ⟨htake, hrerun⟩ := normpath_rel_rerun k plains hplains hnoslash hne
        rw [hnc]
        rw [if_neg htake]
        exact hrerun

/-- C7 amended: path normalization is idempotent for every path string
that contains no backslash (the counterexample shows that on POSIX the
backslash replacement can manufacture new separators that only a second
pass simplifies). -/
theorem C7_amended_normalize_idempotent (p : String) (hp : '\\' ∉ p.data) :
    getPathNormalize (getPathNormalize p) = getPathNormalize p :=
  congrArg String.mk (getPathNormalizeL_idem p.data hp)

/-- Witness for the amended C7 on a messy but backslash-free path. -/
theorem C7_amended_normalize_idempotent_witness :
    getPathNormalize (getPathNormalize "///Base/././//Zone/../Zone/./ZoneBC//.")
      = getPathNormalize "///Base/././//Zone/../Zone/./ZoneBC//." :=
  C7_amended_normalize_idempotent "///Base/././//Zone/../Zone/./ZoneBC//." (by decide)

/-! ### Lemmas about resolution and functional mutation (for C5 and C1) -/

theorem node_eta (n : Node) : Node.mk n.name n.value n.children n.tag = n := by
  cases n
  rfl

theorem getNodeFromPath_eq (segs : List String) (n : Node) :
    getNodeFromPath segs n = getNodeFromPathL segs n.children := by
  cases n
  rfl

theorem removeChildByName_fields (x : Node) (s : String) :
    (removeChildByName x s).name = x.name ∧ (removeChildByName x s).value = x.value
      ∧ (removeChildByName x s).tag = x.tag := by
  rw [removeChildByName]
  split_ifs
  · exact ⟨rfl, rfl, rfl⟩
  · exact ⟨rfl, rfl, rfl⟩

/-- The single-segment lookup, stepwise. -/
theorem getNodeFromPathL_single (s : String) (c : Node) (cs : List Node) :
    getNodeFromPathL [s] (c :: cs) = if c.name = s then some c else getNodeFromPathL [s] cs := by
  simp [getNodeFromPathL]

/-- A name scan that finds nothing removes nothing. -/
theorem removeFirstByName_eq_self {s : String} :
    ∀ {cs : List Node}, getNodeFromPathL [s] cs = none → removeFirstByName cs s = cs := by
  intro cs
  induction cs with
  | nil =>
    intro _
    rfl
  | cons c cs2 ih =>
    intro h
    rw [getNodeFromPathL_single] at h
    split_ifs at h with hn
    rw [removeFirstByName, if_neg hn, ih h]

theorem removeChildByName_eq_self {x : Node} {s : String}
    (h : getNodeFromPathL [s] x.children = none) : removeChildByName x s = x := by
  rw [removeChildByName]
  split_ifs
  · rw [removeFirstByName_eq_self h, node_eta]
  · rfl

/-- A single-segment lookup fails exactly on lists without the name. -/
theorem getNodeFromPathL_single_none {cs : List Node} {s : String}
    (h : s ∉ cs.map Node.name) : getNodeFromPathL [s] cs = none := by
  induction cs with
  | nil => rfl
  | cons c cs2 ih =>
    rw [getNodeFromPathL]
    rw [if_neg ?_]
    · exact ih (fun hm => h (by simp at hm ⊢; exact Or.inr hm))
    · intro hn
      exact h (by simp [hn])

/-- After removing the only child with the name from a duplicate-free
sibling list, the name no longer resolves. -/
theorem getNodeFromPathL_removeFirst_none (s : String) :
    ∀ (cs : List Node), distinctStrings (cs.map Node.name) = true →
      getNodeFromPathL [s] (removeFirstByName cs s) = none := by
  intro cs
  induction cs with
  | nil =>
    intro _
    rfl
  | cons c cs2 ih =>
    intro hd
    rw [List.map_cons, distinctStrings, Bool.and_eq_true] at hd
    by_cases hn : c.name = s
    · rw [removeFirstByName, if_pos hn]
      apply getNodeFromPathL_single_none
      intro hmem
      have := hd.1
      rw [Bool.not_eq_true'] at this -- (cs2.map name).contains c.name = false
      rw [hn] at this
      rw [List.contains_eq_any_beq, List.any_eq_false] at this
      obtain hs2 := this s hmem
      simp at hs2
    · rw [removeFirstByName, if_neg hn, getNodeFromPathL, if_neg hn]
      exact ih hd.2

theorem allSubtrees_eq (n : Node) : allSubtrees n = n :: allSubtreesL n.children := by
  cases n
  rfl

theorem self_mem_allSubtrees (n : Node) : n ∈ allSubtrees n := by
  rw [allSubtrees_eq]
  simp

mutual

theorem modifyNodeFromPath_spec (f : Node → Node) (hf : ∀ x, (f x).name = x.name) :
    ∀ (segs : List String) (n n2 : Node), modifyNodeFromPath segs n f = some n2 →
      ∃ m, getNodeFromPath segs n = some m
        ∧ getNodeFromPath segs n2 = some (f m)
        ∧ (f m = m → n2 = n)
        ∧ n2.name = n.name ∧ n2.value = n.value ∧ n2.tag = n.tag
  | segs, .mk nm v cs tg, n2 => by
    intro h
    rw [modifyNodeFromPath] at h
    rcases hm : modifyNodeFromPathL segs cs f with _ | cs2
    · rw [hm] at h
      exact absurd h (by simp)
    · rw [hm] at h
      obtain rfl : Node.mk nm v cs2 tg = n2 := by simpa using h
      obtain ⟨m, g1, g2, g3⟩ := modifyNodeFromPathL_spec f hf segs cs cs2 hm
      refine ⟨m, ?_, ?_, ?_, rfl, rfl, rfl⟩
      · rw [getNodeFromPath_eq]
        exact g1
      · rw [getNodeFromPath_eq]
        exact g2
      · intro hfm
        rw [g3 hfm]

theorem modifyNodeFromPathL_spec (f : Node → Node) (hf : ∀ x, (f x).name = x.name) :
    ∀ (segs : List String) (cs cs2 : List Node), modifyNodeFromPathL segs cs f = some cs2 →
      ∃ m, getNodeFromPathL segs cs = some m
        ∧ getNodeFromPathL segs cs2 = some (f m)
        ∧ (f m = m → cs2 = cs)
  | [], [], _ => by
    intro h
    exact absurd h (by simp [modifyNodeFromPathL])
  | _ :: _, [], _ => by
    intro h
    exact absurd h (by simp [modifyNodeFromPathL])
  | [], _ :: _, _ => by
    intro h
    exact absurd h (by simp [modifyNodeFromPathL])
  | p :: ps, c :: cs, cs2 => by
    intro h
    rw [modifyNodeFromPathL] at h
    by_cases hn : c.name = p
    · rw [if_pos hn] at h
      by_cases hps : ps = []
      · rw [if_pos hps] at h
        obtain rfl : f c :: cs = cs2 := by simpa using h
        subst hps
        refine ⟨c, ?_, ?_, ?_⟩
        · rw [getNodeFromPathL_single, if_pos hn]
        · rw [getNodeFromPathL_single, if_pos (by rw [hf c]; exact hn)]
        · intro hfc
          rw [hfc]
      · rw [if_neg hps] at h
        rcases hmc : modifyNodeFromPath ps c f with _ | c2
        · rw [hmc] at h
          exact absurd h (by simp)
        · rw [hmc] at h
          obtain rfl : c2 :: cs = cs2 := by simpa using h
          obtain ⟨m, g1, g2, g3, gn, _, _⟩ := modifyNodeFromPath_spec f hf ps c c2 hmc
          refine ⟨m, ?_, ?_, ?_⟩
          · rw [getNodeFromPathL, if_pos hn, if_neg hps]
            exact g1
          · rw [getNodeFromPathL, if_pos (by rw [gn]; exact hn), if_neg hps]
            exact g2
          · intro hfm
            rw [g3 hfm]
    · rw [if_neg hn] at h
      rcases hmc : modifyNodeFromPathL (p :: ps) cs f with _ | cs2x
      · rw [hmc] at h
        exact absurd h (by simp)
      · rw [hmc] at h
        obtain rfl : c :: cs2x = cs2 := by simpa using h
        obtain ⟨m, g1, g2, g3⟩ := modifyNodeFromPathL_spec f hf (p :: ps) cs cs2x hmc
        refine ⟨m, ?_, ?_, ?_⟩
        · rw [getNodeFromPathL, if_neg hn]
          exact g1
        · rw [getNodeFromPathL, if_neg hn]
          exact g2
        · intro hfm
          rw [g3 hfm]

end

set_option linter.unnecessarySeqFocus false in
mutual

theorem modifyNodeFromPath_isSome (f : Node → Node) :
    ∀ (segs : List String) (n : Node),
      (modifyNodeFromPath segs n f).isSome = (getNodeFromPath segs n).isSome
  | segs, .mk nm v cs tg => by
    rw [modifyNodeFromPath, getNodeFromPath]
    have hL := modifyNodeFromPathL_isSome f segs cs
    rcases hm : modifyNodeFromPathL segs cs f with _ | cs2 <;> (rw [hm] at hL; rw [← hL]) <;> rfl

theorem modifyNodeFromPathL_isSome (f : Node → Node) :
    ∀ (segs : List String) (cs : List Node),
      (modifyNodeFromPathL segs cs f).isSome = (getNodeFromPathL segs cs).isSome
  | [], [] => rfl
  | _ :: _, [] => rfl
  | [], _ :: _ => rfl
  | p :: ps, c :: cs => by
    rw [modifyNodeFromPathL, getNodeFromPathL]
    by_cases hn : c.name = p
    · rw [if_pos hn, if_pos hn]
      by_cases hps : ps = []
      · rw [if_pos hps, if_pos hps]
        rfl
      · rw [if_neg hps, if_neg hps]
        have hN := modifyNodeFromPath_isSome f ps c
        rcases hm : modifyNodeFromPath ps c f with _ | c2 <;> (rw [hm] at hN; rw [← hN]) <;> rfl
    · rw [if_neg hn, if_neg hn]
      have hL := modifyNodeFromPathL_isSome f (p :: ps) cs
      rcases hm : modifyNodeFromPathL (p :: ps) cs f with _ | cs2 <;> (rw [hm] at hL; rw [← hL]) <;>
        rfl

end

mutual

theorem getNodeFromPath_mem :
    ∀ (segs : List String) (n m : Node),
      getNodeFromPath segs n = some m → m ∈ allSubtreesL n.children
  | segs, .mk nm v cs tg, m => by
    intro h
    rw [getNodeFromPath] at h
    exact getNodeFromPathL_mem segs cs m h

theorem getNodeFromPathL_mem :
    ∀ (segs : List String) (cs : List Node) (m : Node),
      getNodeFromPathL segs cs = some m → m ∈ allSubtreesL cs
  | [], [], m => by
    intro h
    exact absurd h (by simp [getNodeFromPathL])
  | _ :: _, [], m => by
    intro h
    exact absurd h (by simp [getNodeFromPathL])
  | [], _ :: _, m => by
    intro h
    exact absurd h (by simp [getNodeFromPathL])
  | p :: ps, c :: cs, m => by
    intro h
    rw [getNodeFromPathL] at h
    by_cases hn : c.name = p
    · rw [if_pos hn] at h
      by_cases hps : ps = []
      · rw [if_pos hps] at h
        obtain rfl : c = m := by simpa using h
        rw [allSubtreesL]
        exact List.mem_append_left _ (self_mem_allSubtrees c)
      · rw [if_neg hps] at h
        have hmem := getNodeFromPath_mem ps c m h
        rw [allSubtreesL]
        apply List.mem_append_left
        rw [allSubtrees_eq]
        exact List.mem_cons_of_mem _ hmem
    · rw [if_neg hn] at h
      rw [allSubtreesL]
      exact List.mem_append_right _ (getNodeFromPathL_mem (p :: ps) cs m h)

end

mutual

theorem uniqueChildNames_subtrees :
    ∀ (n : Node), uniqueChildNames n = true →
      ∀ x ∈ allSubtrees n, distinctStrings (x.children.map Node.name) = true
  | .mk nm v cs tg => by
    intro h x hx
    rw [uniqueChildNames, Bool.and_eq_true] at h
    rw [allSubtrees] at hx
    rcases List.mem_cons.mp hx with rfl | hx2
    · exact h.1
    · exact uniqueChildNamesL_subtrees cs h.2 x hx2

theorem uniqueChildNamesL_subtrees :
    ∀ (cs : List Node), uniqueChildNamesL cs = true →
      ∀ x ∈ allSubtreesL cs, distinctStrings (x.children.map Node.name) = true
  | [] => by
    intro h x hx
    simp [allSubtreesL] at hx
  | c :: cs => by
    intro h x hx
    rw [uniqueChildNamesL, Bool.and_eq_true] at h
    rw [allSubtreesL] at hx
    rcases List.mem_append.mp hx with h1 | h1
    · exact uniqueChildNames_subtrees c h.1 x h1
    · exact uniqueChildNamesL_subtrees cs h.2 x h1

end

mutual

theorem allNodesWF_subtrees :
    ∀ (n : Node), allNodesWF n = true → ∀ x ∈ allSubtrees n, checkNode x = true
  | .mk nm v cs tg => by
    intro h x hx
    rw [allNodesWF, Bool.and_eq_true] at h
    rw [allSubtrees] at hx
    rcases List.mem_cons.mp hx with rfl | hx2
    · exact h.1
    · exact allNodesWFL_subtrees cs h.2 x hx2

theorem allNodesWFL_subtrees :
    ∀ (cs : List Node), allNodesWFL cs = true → ∀ x ∈ allSubtreesL cs, checkNode x = true
  | [] => by
    intro h x hx
    simp [allSubtreesL] at hx
  | c :: cs => by
    intro h x hx
    rw [allNodesWFL, Bool.and_eq_true] at h
    rw [allSubtreesL] at hx
    rcases List.mem_append.mp hx with h1 | h1
    · exact allNodesWF_subtrees c h.1 x h1
    · exact allNodesWFL_subtrees cs h.2 x h1

end

/-! ### Clean absolute paths

Paths of the form `'/' + '/'.join(segs)` whose segments are legal
(non-strict `checkName`) backslash-free names pass every path helper
unchanged; these are the paths produced by `getPathFromNode` on trees
with legal names, and the paths for which the delete/resolve claims can
hold. -/

/-- A segment that survives the path helpers: a legal name (non-strict
`checkName`) with no backslash (`getPathNormalize` replaces backslashes). -/
def cleanSeg (s : String) : Prop :=
  checkName s false = true ∧ '\\' ∉ s.data

instance (s : String) : Decidable (cleanSeg s) :=
  inferInstanceAs (Decidable (checkName s false = true ∧ '\\' ∉ s.data))

/-- The absolute path `'/' + '/'.join(segs)`. -/
def mkAbsPath (segs : List String) : String :=
  ⟨'/' :: joinSlashL (segs.map String.data)⟩

theorem stringMk_data (s : String) : String.mk s.data = s := rfl

/-- A name accepted by `checkName` is a plain `normpath` component and
holds no slash. -/
theorem checkName_plain {s : String} (h : checkName s false = true) :
    plainComp s.data ∧ '/' ∉ s.data := by
  obtain ⟨h1, h2, _, h4, _⟩ := checkName_sound s h
  have hslash : '/' ∉ s.data := by
    intro hm
    rw [List.all_eq_true] at h2
    exact absurd (h2 '/' hm) (by decide)
  refine ⟨⟨?_, ?_, ?_⟩, hslash⟩
  · intro hdata
    exact h1 (by rw [show s.length = s.data.length from rfl, hdata]; rfl)
  · intro hdata
    refine h4 (Or.inl ?_)
    cases s
    simp only at hdata
    rw [hdata]
  · intro hdata
    refine h4 (Or.inr ?_)
    cases s
    simp only [ddComp] at hdata
    rw [hdata]

theorem clean_noslash {segs : List String} (h : ∀ s ∈ segs, checkName s false = true) :
    ∀ q ∈ segs.map String.data, '/' ∉ q := by
  intro q hq
  obtain ⟨s, hs, rfl⟩ := List.mem_map.mp hq
  exact (checkName_plain (h s hs)).2

theorem clean_plain {segs : List String} (h : ∀ s ∈ segs, checkName s false = true) :
    ∀ q ∈ segs.map String.data, plainComp q := by
  intro q hq
  obtain ⟨s, hs, rfl⟩ := List.mem_map.mp hq
  exact (checkName_plain (h s hs)).1

theorem map_mk_map_data : ∀ segs : List String, (segs.map String.data).map String.mk = segs
  | [] => rfl
  | s :: t => by rw [List.map_cons, List.map_cons, map_mk_map_data t, stringMk_data]

theorem mkAbsPath_bs_free {segs : List String} (h : ∀ s ∈ segs, cleanSeg s) :
    '\\' ∉ (mkAbsPath segs).data := by
  intro hm
  have hm2 : '\\' ∈ '/' :: joinSlashL (segs.map String.data) := hm
  rcases List.mem_cons.mp hm2 with h1 | h1
  · exact absurd h1 (by decide)
  · rcases mem_joinSlashL h1 with ⟨q, hq, hcq⟩ | h2
    · obtain ⟨s, hs, rfl⟩ := List.mem_map.mp hq
      exact (h s hs).2 hcq
    · exact absurd h2 (by decide)

theorem getPathNormalize_mkAbsPath {segs : List String} (h : ∀ s ∈ segs, cleanSeg s) :
    getPathNormalize (mkAbsPath segs) = mkAbsPath segs := by
  have hbs : '\\' ∉ ('/' :: joinSlashL (segs.map String.data)) := mkAbsPath_bs_free h
  show String.mk (getPathNormalizeL ('/' :: joinSlashL (segs.map String.data))) = _
  rw [getPathNormalizeL_eq_normpathL _ hbs,
    if_pos (show (('/' : Char) :: joinSlashL (segs.map String.data)).take 1 = ['/'] from rfl),
    normpath_abs_rerun (segs.map String.data) (clean_plain (fun s hs => (h s hs).1))
      (clean_noslash (fun s hs => (h s hs).1))]
  rfl

theorem mkAbsPath_ne_empty (segs : List String) : mkAbsPath segs ≠ "" := by
  intro hcon
  have hd : ('/' :: joinSlashL (segs.map String.data)) = ([] : List Char) :=
    congrArg String.data hcon
  exact List.cons_ne_nil _ _ hd

theorem mkAbsPath_ne_root {s0 : String} (rest : List String) (h0 : checkName s0 false = true) :
    mkAbsPath (s0 :: rest) ≠ "/" := by
  intro hcon
  have hd : ('/' :: joinSlashL (s0.data :: rest.map String.data)) = ['/'] :=
    congrArg String.data hcon
  injection hd with _ hd2
  obtain ⟨r, hr⟩ := joinSlashL_cons_exists s0.data (rest.map String.data)
  rw [hr] at hd2
  exact (checkName_plain h0).1.1 (List.append_eq_nil.mp hd2).1

theorem splitSlashL_mkAbsPath {segs : List String} (hne : segs ≠ [])
    (h : ∀ s ∈ segs, checkName s false = true) :
    splitSlashL ((mkAbsPath segs).data) = [] :: segs.map String.data := by
  show splitSlashL ('/' :: joinSlashL (segs.map String.data)) = _
  rw [splitSlashL_slash,
    split_joinSlashL _ (fun hm => hne (List.map_eq_nil_iff.mp hm)) (clean_noslash h)]

theorem pathSplit_mkAbsPath {segs : List String} (hne : segs ≠ [])
    (h : ∀ s ∈ segs, checkName s false = true) :
    pathSplit (mkAbsPath segs) = "" :: segs := by
  rw [pathSplit, splitSlashL_mkAbsPath hne h, List.map_cons, map_mk_map_data]

theorem checkPath_mkAbsPath {segs : List String} (hne : segs ≠ [])
    (h : ∀ s ∈ segs, checkName s false = true) :
    checkPath (mkAbsPath segs) = true := by
  rw [checkPath, if_neg (mkAbsPath_ne_empty segs)]
  show (splitSlashL (if (mkAbsPath segs).data.take 1 = ['/']
      then (mkAbsPath segs).data.drop 1 else (mkAbsPath segs).data)).all
      (fun seg => checkName (String.mk seg) false) = true
  rw [if_pos (show (mkAbsPath segs).data.take 1 = ['/'] from rfl)]
  show (splitSlashL (joinSlashL (segs.map String.data))).all
      (fun seg => checkName (String.mk seg) false) = true
  rw [split_joinSlashL _ (fun hm => hne (List.map_eq_nil_iff.mp hm)) (clean_noslash h)]
  rw [List.all_eq_true]
  intro q hq
  obtain ⟨s, hs, rfl⟩ := List.mem_map.mp hq
  rw [stringMk_data]
  exact h s hs

theorem joinPath_nil_cons (s : String) (rest : List String) :
    joinPath ("" :: s :: rest) = mkAbsPath (s :: rest) := rfl

theorem getPathNoRoot_mkAbsPath {s0 : String} {rest : List String}
    (h : ∀ s ∈ s0 :: rest, cleanSeg s)
    (hh1 : s0 ≠ CGNSHDF5ROOT_s) (hh2 : s0 ≠ CGNSTree_s) :
    getPathNoRoot (some (mkAbsPath (s0 :: rest))) = mkAbsPath (s0 :: rest) := by
  rw [getPathNoRoot]
  rw [if_neg (mkAbsPath_ne_empty (s0 :: rest))]
  simp only [getPathNormalize_mkAbsPath h]
  rw [if_neg (mkAbsPath_ne_root rest (h s0 (by simp)).1)]
  simp only [pathSplit_mkAbsPath (by simp) (fun s hs => (h s hs).1)]
  rw [if_neg (by simp [CGNSHDF5ROOT_s, CGNSTree_s])]
  show joinPath (if "" = "" ∧ (s0 = CGNSHDF5ROOT_s ∨ s0 = CGNSTree_s)
      then "" :: rest else "" :: s0 :: rest) = mkAbsPath (s0 :: rest)
  rw [if_neg (by simp [hh1, hh2])]
  exact joinPath_nil_cons s0 rest

theorem mkAbsPath_length_pos (segs : List String) : 0 < (mkAbsPath segs).length := by
  show 0 < ('/' :: joinSlashL (segs.map String.data)).length
  simp

theorem getPathToList_mkAbsPath {s0 : String} {rest : List String}
    (h : ∀ s ∈ s0 :: rest, cleanSeg s)
    (hh1 : s0 ≠ CGNSHDF5ROOT_s) (hh2 : s0 ≠ CGNSTree_s) :
    getPathToList (some (mkAbsPath (s0 :: rest))) false true = "" :: s0 :: rest := by
  rw [getPathToList]
  rw [if_pos (mkAbsPath_length_pos (s0 :: rest))]
  simp only [getPathNormalize_mkAbsPath h, getPathNoRoot_mkAbsPath h hh1 hh2]
  rw [if_pos ⟨mkAbsPath_ne_root rest (h s0 (by simp)).1, mkAbsPath_ne_empty (s0 :: rest)⟩]
  exact pathSplit_mkAbsPath (by simp) (fun s hs => (h s hs).1)

/-- `getPathAncestor` at level 1, with the two `let ancestor` bindings
resolved. -/
theorem getPathAncestor_one (path : Option String) (noroot : Bool) :
    getPathAncestor path 1 noroot =
      (if (getPathToList path false noroot).length = 2
          ∧ (getPathToList path false noroot).head? = some "" then some "/"
       else if 1 < (getPathToList path false noroot).length then
         some (joinPath (getPathToList path false noroot).dropLast)
       else if (getPathToList path false noroot).length = 1 then some "/"
       else none) := rfl

theorem getPathAncestor_mkAbsPath_single {s0 : String}
    (h : ∀ s ∈ [s0], cleanSeg s)
    (hh1 : s0 ≠ CGNSHDF5ROOT_s) (hh2 : s0 ≠ CGNSTree_s) :
    getPathAncestor (some (mkAbsPath [s0])) 1 true = some "/" := by
  rw [getPathAncestor_one, getPathToList_mkAbsPath h hh1 hh2]
  rw [if_pos (show ("" :: [s0] : List String).length = 2
      ∧ ("" :: [s0] : List String).head? = some ("" : String) from ⟨rfl, rfl⟩)]

theorem getPathAncestor_mkAbsPath_multi {s0 s1 : String} {rest : List String}
    (h : ∀ s ∈ s0 :: s1 :: rest, cleanSeg s)
    (hh1 : s0 ≠ CGNSHDF5ROOT_s) (hh2 : s0 ≠ CGNSTree_s) :
    getPathAncestor (some (mkAbsPath (s0 :: s1 :: rest))) 1 true
      = some (mkAbsPath (s0 :: (s1 :: rest).dropLast)) := by
  rw [getPathAncestor_one, getPathToList_mkAbsPath h hh1 hh2]
  rw [if_neg (by simp)]
  rw [if_pos (by simp)]
  exact congrArg some (joinPath_nil_cons s0 ((s1 :: rest).dropLast))

theorem getPathLeaf_mkAbsPath {s0 : String} {rest : List String}
    (h : ∀ s ∈ s0 :: rest, cleanSeg s)
    (hh1 : s0 ≠ CGNSHDF5ROOT_s) (hh2 : s0 ≠ CGNSTree_s) :
    getPathLeaf (some (mkAbsPath (s0 :: rest))) = (s0 :: rest).getLast (by simp) := by
  rw [getPathLeaf]
  simp only [getPathToList_mkAbsPath h hh1 hh2]
  have hgl : ("" :: s0 :: rest).getLast? = some ((s0 :: rest).getLast (by simp)) := by
    rw [List.getLast?_cons_cons]
    exact List.getLast?_eq_getLast _ _
  rw [hgl]

/-- On a `CGNSTree_t`-tagged tree a clean absolute path whose first
segment is not `CGNSTree` resolves by the plain child traversal. -/
theorem getNodeByPath_mkAbsPath (tree : Node) {s0 : String} {rest : List String}
    (htag : tree.tag = CGNSTree_ts)
    (h : ∀ s ∈ s0 :: rest, checkName s false = true) (hh2 : s0 ≠ CGNSTree_s) :
    getNodeByPath tree (mkAbsPath (s0 :: rest)) = getNodeFromPath (s0 :: rest) tree := by
  rw [getNodeByPath]
  rw [if_neg (mkAbsPath_ne_root rest (h s0 (by simp)))]
  rw [if_neg (not_not_intro (checkPath_mkAbsPath (by simp) h))]
  have hlp : (splitSlashL (if (mkAbsPath (s0 :: rest)).data.take 1 = ['/']
        then (mkAbsPath (s0 :: rest)).data.drop 1
        else (mkAbsPath (s0 :: rest)).data)).map String.mk = s0 :: rest := by
    rw [if_pos (show (mkAbsPath (s0 :: rest)).data.take 1 = ['/'] from rfl)]
    show (splitSlashL (joinSlashL ((s0 :: rest).map String.data))).map String.mk = _
    rw [split_joinSlashL _ (by simp) (clean_noslash h), map_mk_map_data]
  simp only [hlp]
  rw [if_pos htag]
  rw [if_neg (by simp [hh2])]

/-- The same for the functional image of resolve-then-mutate. -/
theorem modifyByPath_mkAbsPath (tree : Node) {s0 : String} {rest : List String}
    (htag : tree.tag = CGNSTree_ts)
    (h : ∀ s ∈ s0 :: rest, checkName s false = true) (hh2 : s0 ≠ CGNSTree_s)
    (f : Node → Node) :
    modifyByPath tree (some (mkAbsPath (s0 :: rest))) f
      = modifyNodeFromPath (s0 :: rest) tree f := by
  rw [modifyByPath]
  rw [if_neg (mkAbsPath_ne_root rest (h s0 (by simp)))]
  rw [if_neg (not_not_intro (checkPath_mkAbsPath (by simp) h))]
  have hlp : (splitSlashL (if (mkAbsPath (s0 :: rest)).data.take 1 = ['/']
        then (mkAbsPath (s0 :: rest)).data.drop 1
        else (mkAbsPath (s0 :: rest)).data)).map String.mk = s0 :: rest := by
    rw [if_pos (show (mkAbsPath (s0 :: rest)).data.take 1 = ['/'] from rfl)]
    show (splitSlashL (joinSlashL ((s0 :: rest).map String.data))).map String.mk = _
    rw [split_joinSlashL _ (by simp) (clean_noslash h), map_mk_map_data]
  simp only [hlp]
  rw [if_pos htag]
  rw [if_neg (by simp [hh2])]

theorem modifyByPath_root (tree : Node) (f : Node → Node) :
    modifyByPath tree (some "/") f = some (f tree) := by
  rw [modifyByPath, if_pos rfl]

mutual

/-- Splitting off the last segment of a lookup: resolve the prefix, then
the final name among the children of the resolved node. -/
theorem getNodeFromPath_append_last :
    ∀ (xs : List String) (x : String) (n : Node), xs ≠ [] →
      getNodeFromPath (xs ++ [x]) n
        = (getNodeFromPath xs n).bind (fun m => getNodeFromPathL [x] m.children)
  | xs, x, .mk nm v cs tg => by
    intro hxs
    rw [getNodeFromPath_eq, getNodeFromPath_eq]
    exact getNodeFromPathL_append_last xs x cs hxs

theorem getNodeFromPathL_append_last :
    ∀ (xs : List String) (x : String) (cs : List Node), xs ≠ [] →
      getNodeFromPathL (xs ++ [x]) cs
        = (getNodeFromPathL xs cs).bind (fun m => getNodeFromPathL [x] m.children)
  | [], _, _ => by
    intro hxs
    exact absurd rfl hxs
  | p :: ps, x, [] => by
    intro _
    rfl
  | p :: ps, x, c :: cs => by
    intro _
    by_cases hn : c.name = p
    · by_cases hps : ps = []
      · subst hps
        rw [List.cons_append, List.nil_append]
        rw [getNodeFromPathL, if_pos hn, if_neg (by simp)]
        rw [getNodeFromPath_eq]
        rw [getNodeFromPathL_single, if_pos hn]
        rfl
      · rw [List.cons_append]
        rw [getNodeFromPathL, if_pos hn, if_neg (by simp)]
        rw [getNodeFromPath_append_last ps x c hps]
        conv_rhs => rw [getNodeFromPathL]
        rw [if_pos hn, if_neg hps]
    · rw [List.cons_append]
      rw [getNodeFromPathL, if_neg hn]
      conv_rhs => rw [getNodeFromPathL]
      rw [if_neg hn]
      exact getNodeFromPathL_append_last (p :: ps) x cs (by simp)

end

/-- C5 (corrected): on a well-formed `CGNSTree_t` tree with duplicate-free
sibling names, deleting a clean absolute path (legal backslash-free
segment names, first segment not a root alias) removes exactly that node:
afterwards the path no longer resolves, and when the path did not resolve
in the first place the tree — hence `getAllPaths` — is unchanged. -/
theorem C5_amended_delete (tree : Node) (s0 : String) (rest : List String)
    (htag : tree.tag = CGNSTree_ts)
    (hwf : allNodesWF tree = true)
    (huniq : uniqueChildNames tree = true)
    (hclean : ∀ s ∈ s0 :: rest, cleanSeg s)
    (hh1 : s0 ≠ CGNSHDF5ROOT_s) (hh2 : s0 ≠ CGNSTree_s) :
    ((getNodeByPath tree (mkAbsPath (s0 :: rest))).isSome = true →
        getNodeByPath (nodeDelete tree (mkAbsPath (s0 :: rest)))
          (mkAbsPath (s0 :: rest)) = none)
    ∧ (getNodeByPath tree (mkAbsPath (s0 :: rest)) = none →
        nodeDelete tree (mkAbsPath (s0 :: rest)) = tree
        ∧ getAllPaths (nodeDelete tree (mkAbsPath (s0 :: rest))) = getAllPaths tree) := by
  have hwt : checkNode tree = true :=
    allNodesWF_subtrees tree hwf tree (self_mem_allSubtrees tree)
  have hdt : distinctStrings (tree.children.map Node.name) = true :=
    uniqueChildNames_subtrees tree huniq tree (self_mem_allSubtrees tree)
  cases rest with
  | nil =>
    have hdel : nodeDelete tree (mkAbsPath [s0]) = removeChildByName tree s0 := by
      rw [nodeDelete]
      simp only [getPathAncestor_mkAbsPath_single hclean hh1 hh2,
        getPathLeaf_mkAbsPath hclean hh1 hh2]
      rw [if_pos (fun hcon =>
        mkAbsPath_ne_root [] (hclean s0 (by simp)).1 (Option.some.inj hcon).symm)]
      rw [modifyByPath_root]
      rfl
    constructor
    · intro _
      rw [hdel]
      have htag2 : (removeChildByName tree s0).tag = CGNSTree_ts :=
        (removeChildByName_fields tree s0).2.2.trans htag
      rw [getNodeByPath_mkAbsPath _ htag2 (fun s hs => (hclean s hs).1) hh2, getNodeFromPath_eq]
      have hch : (removeChildByName tree s0).children = removeFirstByName tree.children s0 := by
        rw [removeChildByName, if_neg (not_not_intro hwt)]
        rfl
      rw [hch]
      exact getNodeFromPathL_removeFirst_none s0 tree.children hdt
    · intro hnone
      rw [getNodeByPath_mkAbsPath _ htag (fun s hs => (hclean s hs).1) hh2, getNodeFromPath_eq] at hnone
      have : nodeDelete tree (mkAbsPath [s0]) = tree :=
        hdel.trans (removeChildByName_eq_self hnone)
      exact ⟨this, by rw [this]⟩
  | cons s1 rest2 =>
    have hclean' : ∀ s ∈ s0 :: (s1 :: rest2).dropLast, cleanSeg s := by
      intro s hs
      rcases List.mem_cons.mp hs with rfl | hs2
      · exact hclean s (by simp)
      · exact hclean s (List.mem_cons_of_mem _ (List.dropLast_subset _ hs2))
    have hinj : mkAbsPath (s0 :: (s1 :: rest2).dropLast) ≠ mkAbsPath (s0 :: s1 :: rest2) := by
      intro hcon
      have h1 := @pathSplit_mkAbsPath (s0 :: (s1 :: rest2).dropLast) (by simp)
        (fun s hs => (hclean' s hs).1)
      have h2 := @pathSplit_mkAbsPath (s0 :: s1 :: rest2) (by simp)
        (fun s hs => (hclean s hs).1)
      rw [hcon, h2] at h1
      have hlen := congrArg List.length h1
      simp [List.length_dropLast] at hlen
    have hdel : nodeDelete tree (mkAbsPath (s0 :: s1 :: rest2))
        = (match modifyNodeFromPath (s0 :: (s1 :: rest2).dropLast) tree
              (fun np => removeChildByName np ((s0 :: s1 :: rest2).getLast (by simp))) with
           | some t2 => t2
           | none => tree) := by
      rw [nodeDelete]
      simp only [getPathAncestor_mkAbsPath_multi hclean hh1 hh2,
        getPathLeaf_mkAbsPath hclean hh1 hh2]
      rw [if_pos (fun hcon => hinj (Option.some.inj hcon))]
      rw [modifyByPath_mkAbsPath tree htag (fun s hs => (hclean' s hs).1) hh2]
    have hdecomp : ∀ n : Node, getNodeFromPath (s0 :: s1 :: rest2) n
        = (getNodeFromPath (s0 :: (s1 :: rest2).dropLast) n).bind
            (fun m => getNodeFromPathL [(s0 :: s1 :: rest2).getLast (by simp)] m.children) := by
      intro n
      conv_lhs =>
        rw [← List.dropLast_append_getLast (show (s0 :: s1 :: rest2) ≠ [] from by simp)]
      exact getNodeFromPath_append_last _ _ n
        (show (s0 :: (s1 :: rest2).dropLast) ≠ [] from by simp)
    have hfnm : ∀ x : Node,
        ((fun np => removeChildByName np ((s0 :: s1 :: rest2).getLast (by simp))) x).name
          = x.name :=
      fun x => (removeChildByName_fields x _).1
    constructor
    · intro hsome
      rw [getNodeByPath_mkAbsPath _ htag (fun s hs => (hclean s hs).1) hh2, hdecomp] at hsome
      rcases hanc : getNodeFromPath (s0 :: (s1 :: rest2).dropLast) tree with _ | m
      · rw [hanc] at hsome
        exact absurd hsome (by simp)
      · rw [hanc] at hsome
        have hiso := modifyNodeFromPath_isSome
          (fun np => removeChildByName np ((s0 :: s1 :: rest2).getLast (by simp)))
          (s0 :: (s1 :: rest2).dropLast) tree
        rw [hanc] at hiso
        rcases hmod : modifyNodeFromPath (s0 :: (s1 :: rest2).dropLast) tree
            (fun np => removeChildByName np ((s0 :: s1 :: rest2).getLast (by simp)))
          with _ | t2
        · rw [hmod] at hiso
          exact absurd hiso (by simp)
        · obtain ⟨m2, g1, g2, _, _, _, gt⟩ := modifyNodeFromPath_spec _ hfnm _ _ _ hmod
          obtain rfl : m2 = m := by
            rw [hanc] at g1
            exact (Option.some.inj g1).symm
          have hnd : nodeDelete tree (mkAbsPath (s0 :: s1 :: rest2)) = t2 := by
            rw [hdel, hmod]
          rw [hnd]
          have htag2 : t2.tag = CGNSTree_ts := gt.trans htag
          rw [getNodeByPath_mkAbsPath _ htag2 (fun s hs => (hclean s hs).1) hh2, hdecomp, g2]
          have hmm : m2 ∈ allSubtrees tree := by
            rw [allSubtrees_eq]
            exact List.mem_cons_of_mem _ (getNodeFromPath_mem _ tree m2 hanc)
          have hwm : checkNode m2 = true := allNodesWF_subtrees tree hwf m2 hmm
          have hdm : distinctStrings (m2.children.map Node.name) = true :=
            uniqueChildNames_subtrees tree huniq m2 hmm
          show (getNodeFromPathL [(s0 :: s1 :: rest2).getLast (by simp)]
            (removeChildByName m2 ((s0 :: s1 :: rest2).getLast (by simp))).children) = none
          have hch : (removeChildByName m2 ((s0 :: s1 :: rest2).getLast (by simp))).children
              = removeFirstByName m2.children ((s0 :: s1 :: rest2).getLast (by simp)) := by
            rw [removeChildByName, if_neg (not_not_intro hwm)]
            rfl
          rw [hch]
          exact getNodeFromPathL_removeFirst_none _ m2.children hdm
    · intro hnone
      rw [getNodeByPath_mkAbsPath _ htag (fun s hs => (hclean s hs).1) hh2, hdecomp] at hnone
      have hiso := modifyNodeFromPath_isSome
        (fun np => removeChildByName np ((s0 :: s1 :: rest2).getLast (by simp)))
        (s0 :: (s1 :: rest2).dropLast) tree
      rcases hanc : getNodeFromPath (s0 :: (s1 :: rest2).dropLast) tree with _ | m
      · rw [hanc] at hiso
        rcases hmod : modifyNodeFromPath (s0 :: (s1 :: rest2).dropLast) tree
            (fun np => removeChildByName np ((s0 :: s1 :: rest2).getLast (by simp)))
          with _ | t2
        · have heq : nodeDelete tree (mkAbsPath (s0 :: s1 :: rest2)) = tree := by
            rw [hdel, hmod]
          exact ⟨heq, by rw [heq]⟩
        · rw [hmod] at hiso
          exact absurd hiso (by simp)
      · rw [hanc] at hnone
        have hleaf : getNodeFromPathL [(s0 :: s1 :: rest2).getLast (by simp)] m.children
            = none := by
          simpa using hnone
        rw [hanc] at hiso
        rcases hmod : modifyNodeFromPath (s0 :: (s1 :: rest2).dropLast) tree
            (fun np => removeChildByName np ((s0 :: s1 :: rest2).getLast (by simp)))
          with _ | t2
        · rw [hmod] at hiso
          exact absurd hiso (by simp)
        · obtain ⟨m2, g1, _, g3, _⟩ := modifyNodeFromPath_spec _ hfnm _ _ _ hmod
          obtain rfl : m2 = m := by
            rw [hanc] at g1
            exact (Option.some.inj g1).symm
          have hfix : removeChildByName m2 ((s0 :: s1 :: rest2).getLast (by simp)) = m2 :=
            removeChildByName_eq_self hleaf
          have heq : nodeDelete tree (mkAbsPath (s0 :: s1 :: rest2)) = tree := by
            rw [hdel, hmod]
            exact g3 hfix
          exact ⟨heq, by rw [heq]⟩

/-- A compliant two-level tree: root, one base, one zone. -/
def twoLevelTree : Node :=
  Node.mk "CGNSTree" PyVal.vnone
    [Node.mk "Base" PyVal.vnone
      [Node.mk "Zone" PyVal.vnone [] "Zone_t"] "CGNSBase_t"] "CGNSTree_t"

/-- Witness for the corrected C5 at a concrete tree and path: deleting
`/Base/Zone` makes the path unresolvable. -/
theorem C5_amended_delete_witness :
    (getNodeByPath twoLevelTree (mkAbsPath ["Base", "Zone"])).isSome = true
    ∧ getNodeByPath (nodeDelete twoLevelTree (mkAbsPath ["Base", "Zone"]))
        (mkAbsPath ["Base", "Zone"]) = none :=
  ⟨by decide,
   (C5_amended_delete twoLevelTree "Base" ["Zone"] (by decide) (by decide) (by decide)
      (by decide) (by decide) (by decide)).1 (by decide)⟩

/-! ### Lemmas for the path/resolve round-trip (C1) -/

theorem sameValueType_refl (v : PyVal) : sameValueType v v = true := by
  cases v <;> simp [sameValueType]

theorem checkSameValue_refl (a : Node) : checkSameValue a a = true := by
  rcases hv : a.value with _ | ⟨k, c, f, s, d⟩ | i <;> simp [checkSameValue, hv]

/-- `sameNode` is reflexive on well-formed nodes. -/
theorem sameNode_refl {n : Node} (h : checkNode n = true) : sameNode n n = true := by
  simp [sameNode, h, sameValueType_refl, checkSameValue_refl]

/-- Two distinct members both satisfying the predicate force a count of at
least two. -/
theorem countP_two {α : Type} (p : α → Bool) :
    ∀ (l : List α) (a b : α), a ≠ b → a ∈ l → b ∈ l → p a = true → p b = true →
      2 ≤ l.countP p := by
  intro l
  induction l with
  | nil =>
    intro a b _ ha _ _ _
    exact absurd ha (by simp)
  | cons x t ih =>
    intro a b hne ha hb hpa hpb
    rw [List.countP_cons]
    rcases List.mem_cons.mp ha with rfl | ha2
    · rcases List.mem_cons.mp hb with rfl | hb2
      · exact absurd rfl hne
      · have h1 : 0 < t.countP p := List.countP_pos_iff.mpr ⟨b, hb2, hpb⟩
        rw [if_pos hpa]
        omega
    · rcases List.mem_cons.mp hb with rfl | hb2
      · have h1 : 0 < t.countP p := List.countP_pos_iff.mpr ⟨a, ha2, hpa⟩
        rw [if_pos hpb]
        omega
      · have h2 := ih a b hne ha2 hb2 hpa hpb
        split_ifs <;> omega

/-- A successful lookup's head segment is one of the sibling names. -/
theorem getNodeFromPathL_name_mem {s : String} {segs : List String} :
    ∀ {cs : List Node} {m : Node}, getNodeFromPathL (s :: segs) cs = some m →
      s ∈ cs.map Node.name := by
  intro cs
  induction cs with
  | nil =>
    intro m h
    exact absurd h (by simp [getNodeFromPathL])
  | cons c t ih =>
    intro m h
    rw [getNodeFromPathL] at h
    by_cases hn : c.name = s
    · rw [List.map_cons, hn]
      simp
    · rw [if_neg hn] at h
      exact List.mem_cons_of_mem _ (ih h)

mutual

/-- Segments of a successful lookup in a `goodNames` subtree are legal
names distinct from the reserved root name. -/
theorem getNodeFromPath_good_names :
    ∀ (segs : List String) (t : Node) (m : Node), goodNames t = true →
      getNodeFromPath segs t = some m →
      ∀ s ∈ segs, checkName s false = true ∧ s ≠ CGNSTree_s
  | segs, .mk nm v cs tg, m => by
    intro hg h
    exact getNodeFromPathL_good_names segs cs m hg h

theorem getNodeFromPathL_good_names :
    ∀ (segs : List String) (cs : List Node) (m : Node), goodNamesL cs = true →
      getNodeFromPathL segs cs = some m →
      ∀ s ∈ segs, checkName s false = true ∧ s ≠ CGNSTree_s
  | _, [], _ => by
    intro _ h
    exact absurd h (by simp [getNodeFromPathL])
  | [], _ :: _, _ => by
    intro _ h
    exact absurd h (by simp [getNodeFromPathL])
  | p :: ps, c :: cs, m => by
    intro hg h
    rw [goodNamesL, Bool.and_eq_true, Bool.and_eq_true, Bool.and_eq_true] at hg
    obtain ⟨⟨⟨hcn, hns⟩, hgc⟩, hgl⟩ := hg
    rw [getNodeFromPathL] at h
    by_cases hn : c.name = p
    · rw [if_pos hn] at h
      have hhead : checkName p false = true ∧ p ≠ CGNSTree_s := by
        rw [← hn]
        refine ⟨hcn, ?_⟩
        intro hcon
        rw [hcon] at hns
        simp at hns
      by_cases hps : ps = []
      · subst hps
        intro s hs
        rcases List.mem_cons.mp hs with rfl | hs2
        · exact hhead
        · simp at hs2
      · rw [if_neg hps] at h
        intro s hs
        rcases List.mem_cons.mp hs with rfl | hs2
        · exact hhead
        · exact getNodeFromPath_good_names ps c m hgc h s hs2
    · rw [if_neg hn] at h
      exact getNodeFromPathL_good_names (p :: ps) cs m hgl h

end

theorem string_append_data (a b : String) : (a ++ b).data = a.data ++ b.data := rfl

mutual

/-- Whatever `getPathFromNode` returns extends the accumulated path. -/
theorem getPathFromNode_prefix :
    ∀ (t n : Node) (path q : String), getPathFromNode t n path = some q →
      ∃ r, q.data = path.data ++ r
  | .mk nm v cs tg, n, path, q => by
    intro h
    rw [getPathFromNode] at h
    by_cases hs : sameNode n (.mk nm v cs tg) = true
    · rw [if_pos hs] at h
      exact ⟨[], by rw [← Option.some.inj h]; simp⟩
    · rw [if_neg hs] at h
      obtain ⟨r, _, hr⟩ := getPathFromNodeL_prefix cs n path q h
      exact ⟨r, hr⟩

theorem getPathFromNodeL_prefix :
    ∀ (cs : List Node) (n : Node) (path q : String), getPathFromNodeL cs n path = some q →
      ∃ r, r ≠ [] ∧ q.data = path.data ++ r
  | [], n, path, q => by
    intro h
    exact absurd h (by simp [getPathFromNodeL])
  | c :: cs, n, path, q => by
    intro h
    rw [getPathFromNodeL] at h
    rcases hrec : getPathFromNode c n (path ++ "/" ++ c.name) with _ | p <;> rw [hrec] at h
    · exact getPathFromNodeL_prefix cs n path q h
    · replace h : (if p = "" then getPathFromNodeL cs n path else some p) = some q := h
      by_cases hp : p = ""
      · rw [if_pos hp] at h
        exact getPathFromNodeL_prefix cs n path q h
      · rw [if_neg hp] at h
        obtain rfl : p = q := Option.some.inj h
        obtain ⟨r, hr⟩ := getPathFromNode_prefix c n (path ++ "/" ++ c.name) p hrec
        refine ⟨'/' :: (c.name.data ++ r), by simp, ?_⟩
        rw [hr, string_append_data, string_append_data]
        simp

end

mutual

/-- `getPathFromNode` finds a result whenever some subtree position
`sameNode`-matches the probe. -/
theorem getPathFromNode_complete :
    ∀ (t n x : Node), x ∈ allSubtrees t → sameNode n x = true →
      ∀ path, (getPathFromNode t n path).isSome = true
  | .mk nm v cs tg, n, x => by
    intro hx hs path
    rw [getPathFromNode]
    by_cases hroot : sameNode n (.mk nm v cs tg) = true
    · rw [if_pos hroot]
      rfl
    · rw [if_neg hroot]
      rw [allSubtrees] at hx
      rcases List.mem_cons.mp hx with rfl | hx2
      · exact absurd hs hroot
      · exact getPathFromNodeL_complete cs n x hx2 hs path

theorem getPathFromNodeL_complete :
    ∀ (cs : List Node) (n x : Node), x ∈ allSubtreesL cs → sameNode n x = true →
      ∀ path, (getPathFromNodeL cs n path).isSome = true
  | [], n, x => by
    intro hx _ _
    simp [allSubtreesL] at hx
  | c :: cs, n, x => by
    intro hx hs path
    rw [getPathFromNodeL]
    rcases hrec : getPathFromNode c n (path ++ "/" ++ c.name) with _ | p
    · rw [allSubtreesL] at hx
      rcases List.mem_append.mp hx with hx1 | hx2
      · have := getPathFromNode_complete c n x hx1 hs (path ++ "/" ++ c.name)
        rw [hrec] at this
        exact absurd this (by simp)
      · exact getPathFromNodeL_complete cs n x hx2 hs path
    · have hp : ¬ p = "" := by
        intro hp
        obtain ⟨r, hr⟩ := getPathFromNode_prefix c n (path ++ "/" ++ c.name) p hrec
        subst hp
        have hr2 : ([] : List Char) = (path.data ++ ['/'] ++ c.name.data) ++ r := hr
        simp at hr2
      show (if p = "" then getPathFromNodeL cs n path else some p).isSome = true
      rw [if_neg hp]
      rfl

end

mutual

/-- What `getPathFromNode` returns: either the accumulated path itself
(probe matches the current node) or the accumulated path extended by a
nonempty segment list that resolves — by the committing name lookup — to a
`sameNode`-match of the probe; duplicate-free sibling names make the
lookup follow exactly the found branch. -/
theorem getPathFromNode_sound :
    ∀ (t n : Node) (path q : String), uniqueChildNames t = true →
      getPathFromNode t n path = some q →
      (q = path ∧ sameNode n t = true)
      ∨ ∃ segs m, segs ≠ []
          ∧ q.data = path.data ++ '/' :: joinSlashL (segs.map String.data)
          ∧ getNodeFromPathL segs t.children = some m ∧ sameNode n m = true
  | .mk nm v cs tg, n, path, q => by
    intro hu h
    rw [getPathFromNode] at h
    by_cases hs : sameNode n (.mk nm v cs tg) = true
    · rw [if_pos hs] at h
      exact Or.inl ⟨(Option.some.inj h).symm, hs⟩
    · rw [if_neg hs] at h
      rw [uniqueChildNames, Bool.and_eq_true] at hu
      exact Or.inr (getPathFromNodeL_sound cs n path q hu.1 hu.2 h)

theorem getPathFromNodeL_sound :
    ∀ (cs : List Node) (n : Node) (path q : String),
      distinctStrings (cs.map Node.name) = true → uniqueChildNamesL cs = true →
      getPathFromNodeL cs n path = some q →
      ∃ segs m, segs ≠ []
        ∧ q.data = path.data ++ '/' :: joinSlashL (segs.map String.data)
        ∧ getNodeFromPathL segs cs = some m ∧ sameNode n m = true
  | [], n, path, q => by
    intro _ _ h
    exact absurd h (by simp [getPathFromNodeL])
  | c :: cs, n, path, q => by
    intro hd hu h
    rw [List.map_cons, distinctStrings, Bool.and_eq_true] at hd
    rw [uniqueChildNamesL, Bool.and_eq_true] at hu
    rw [getPathFromNodeL] at h
    rcases hrec : getPathFromNode c n (path ++ "/" ++ c.name) with _ | p <;> rw [hrec] at h
    · obtain ⟨segs, m, hne, hq, hlk, hsm⟩ := getPathFromNodeL_sound cs n path q hd.2 hu.2 h
      rcases segs with _ | ⟨s, segs2⟩
      · exact absurd rfl hne
      · have hsname : s ∈ cs.map Node.name := getNodeFromPathL_name_mem hlk
        have hcnot : c.name ∉ cs.map Node.name := by
          intro hmemn
          have hfalse := hd.1
          rw [Bool.not_eq_true'] at hfalse
          rw [List.contains_eq_any_beq, List.any_eq_false] at hfalse
          have h2 := hfalse c.name hmemn
          simp at h2
        refine ⟨s :: segs2, m, by simp, hq, ?_, hsm⟩
        rw [getNodeFromPathL, if_neg (fun hcon => hcnot (by rw [hcon]; exact hsname))]
        exact hlk
    · replace h : (if p = "" then getPathFromNodeL cs n path else some p) = some q := h
      by_cases hp : p = ""
      · exfalso
        obtain ⟨r, hr⟩ := getPathFromNode_prefix c n (path ++ "/" ++ c.name) p hrec
        subst hp
        have hr2 : ([] : List Char) = (path.data ++ ['/'] ++ c.name.data) ++ r := hr
        simp at hr2
      · rw [if_neg hp] at h
        obtain rfl : p = q := Option.some.inj h
        have expand : (path ++ "/" ++ c.name).data = (path.data ++ ['/']) ++ c.name.data := rfl
        rcases getPathFromNode_sound c n (path ++ "/" ++ c.name) p hu.1 hrec with
          ⟨hpe, hsc⟩ | ⟨segs, m, hne, hq, hlk, hsm⟩
        · refine ⟨[c.name], c, by simp, ?_, ?_, hsc⟩
          · rw [hpe, expand]
            show (path.data ++ ['/']) ++ c.name.data = path.data ++ '/' :: c.name.data
            simp
          · rw [getNodeFromPathL_single, if_pos rfl]
        · refine ⟨c.name :: segs, m, by simp, ?_, ?_, hsm⟩
          · rw [hq, expand]
            rw [List.map_cons,
              joinSlashL_cons _ _ (fun hcon => hne (List.map_eq_nil_iff.mp hcon))]
            simp
          · rw [getNodeFromPathL, if_pos rfl, if_neg hne]
            show getNodeFromPath segs c = some m
            rw [getNodeFromPath_eq]
            exact hlk

end

/-- C1 (corrected): the path/resolve round-trip holds for well-formed
strict descendants, unique under `sameNode`, of a `CGNSTree_t` tree whose
sibling names are duplicate-free and whose descendant names are legal and
not the reserved root name; for the root itself it fails (see the
counterexample: the computed path is `''` and resolves to `None`). -/
theorem C1_amended_roundtrip (tree n : Node)
    (htag : tree.tag = CGNSTree_ts)
    (hn : checkNode n = true)
    (huniq : uniqueChildNames tree = true)
    (hgood : goodNames tree = true)
    (hmem : n ∈ allSubtreesL tree.children)
    (hcount : countSame n tree = 1) :
    getNodeByPathO tree (getPathFromNode tree n "") = some n := by
  have hmem2 : n ∈ allSubtrees tree := by
    rw [allSubtrees_eq]
    exact List.mem_cons_of_mem _ hmem
  have hrefl : sameNode n n = true := sameNode_refl hn
  have hfound := getPathFromNode_complete tree n n hmem2 hrefl ""
  rcases hq : getPathFromNode tree n "" with _ | q
  · rw [hq] at hfound
    exact absurd hfound (by simp)
  · rcases getPathFromNode_sound tree n "" q huniq hq with ⟨_, hsr⟩ | ⟨segs, m, hne, hqd, hlk, hsm⟩
    · exfalso
      rw [countSame, allSubtrees_eq, List.countP_cons] at hcount
      have h1 : 0 < (allSubtreesL tree.children).countP (fun m => sameNode n m) :=
        List.countP_pos_iff.mpr ⟨n, hmem, hrefl⟩
      rw [if_pos hsr] at hcount
      omega
    · have hqe : q = mkAbsPath segs := by
        cases q
        exact congrArg String.mk (by simpa using hqd)
      have heq : m = n := by
        by_contra hmn
        have h2 := countP_two (fun m => sameNode n m) (allSubtrees tree) m n hmn
          (by rw [allSubtrees_eq]
              exact List.mem_cons_of_mem _ (getNodeFromPathL_mem segs tree.children m hlk))
          hmem2 hsm hrefl
        rw [countSame] at hcount
        omega
      rw [heq] at hlk
      have hgoodL : goodNamesL tree.children = true := by
        cases tree
        exact hgood
      have hnames := getNodeFromPathL_good_names segs tree.children n hgoodL hlk
      rcases segs with _ | ⟨s0, rest⟩
      · exact absurd rfl hne
      · show getNodeByPath tree q = some n
        rw [hqe, getNodeByPath_mkAbsPath tree htag (fun s hs => (hnames s hs).1)
          (hnames s0 (by simp)).2, getNodeFromPath_eq]
        exact hlk

/-- Witness for the corrected C1 at a concrete tree and node: the zone of
the two-level tree round-trips. -/
theorem C1_amended_roundtrip_witness :
    (Node.mk "Zone" PyVal.vnone [] "Zone_t") ∈ allSubtreesL twoLevelTree.children
    ∧ countSame (Node.mk "Zone" PyVal.vnone [] "Zone_t") twoLevelTree = 1
    ∧ getNodeByPathO twoLevelTree
        (getPathFromNode twoLevelTree (Node.mk "Zone" PyVal.vnone [] "Zone_t") "")
        = some (Node.mk "Zone" PyVal.vnone [] "Zone_t") :=
  ⟨by decide, by decide,
   C1_amended_roundtrip twoLevelTree (Node.mk "Zone" PyVal.vnone [] "Zone_t")
     (by decide) (by decide) (by decide) (by decide) (by decide) (by decide)⟩
